import Mathlib

/-!
A shallow embedding, in Lean 4, of the core of the `jolt` I/O-benchmark
repository (Go), together with theorems about its behaviour.

Conventions used throughout:
* Go `int`/`int64` values are embedded as `ℤ` (with `Int.tdiv`/`Int.tmod`
  for Go's truncated division), Go `float64` values as `ℚ` (exact rational
  arithmetic in place of IEEE floating point; divisions by zero yield 0 in
  `ℚ` where Go would produce ±Inf/NaN — the spots where this matters are
  noted at the definition), Go strings as `String`, Go maps as functions
  or association lists, and Go `time.Duration` as `ℤ` nanoseconds.
* Mutating methods become functions from the receiver to the new receiver.
* Sources are named next to each definition.
-/

set_option maxRecDepth 4000

/-- Truncation of a rational toward zero: the behaviour of Go's
`int64(f)` conversion for a finite `float64` value `f`. -/
def ratTrunc (x : ℚ) : ℤ := if x < 0 then -(⌊-x⌋) else ⌊x⌋

/-- Rounding half away from zero: the behaviour of Go's `math.Round`
(composed with the `int(...)` conversion of the already-integral result). -/
def roundQ (x : ℚ) : ℤ := if x < 0 then -(⌊-x + 1/2⌋) else ⌊x + 1/2⌋

/-- `math.MaxInt64`, the sentinel stored in `MinSeen` by `NewHistogram`. -/
def maxInt64 : ℤ := 9223372036854775807

namespace Stats

/-- `pkg/stats/histogram.go`: `linearThreshold = 1000` (µs). -/
def linearThreshold : ℤ := 1000

/-- `pkg/stats/histogram.go` `init()`: the upper limit of the geometric
bucket region, `60 * 1000 * 1000` µs. -/
def expLimit : ℕ := 60 * 1000 * 1000

/-- The geometric part of the bucket-limit table, from the `init()` loop

    for curr < limit { curr *= expFactor; bucketLimits = append(..., int64(curr)) }

with `expFactor = 1.1`.  The `float64` accumulator `curr` is carried as the
exact rational `num / den` (each step multiplies `num` by 11 and `den` by 10),
and `int64(curr)` is the truncation `num / den` in `ℕ`.  The loop runs until
`curr < limit` fails (about 116 iterations from 1000); the fuel argument is an
upper bound on the iteration count, large enough that it is never exhausted. -/
def expPart : ℕ → ℕ → ℕ → List ℤ
  | 0, _, _ => []
  | fuel+1, num, den =>
    if num < expLimit * den then
      ((num * 11 / (den * 10) : ℕ) : ℤ) :: expPart fuel (num * 11) (den * 10)
    else []

/-- `pkg/stats/histogram.go` `init()`: the bucket-limit table, 1001 linear
limits `0..1000` followed by the geometric limits starting from `curr = 1000`. -/
def bucketLimits : List ℤ :=
  (List.range 1001).map (fun i : ℕ => (i : ℤ)) ++ expPart 200 1000 1

/-- The number of buckets, `len(bucketLimits)`. -/
def numBuckets : ℕ := bucketLimits.length

/-- `pkg/stats/histogram.go`: the `Histogram` struct.  `Counts` is the
bucket array, the remaining fields are as in the source.  (`MinVal` and
`MaxVal` are declared in the source struct but never assigned; they stay 0.) -/
structure Histogram where
  MinVal : ℤ
  MaxVal : ℤ
  Counts : List ℤ
  TotalCount : ℤ
  MinSeen : ℤ
  MaxSeen : ℤ
  Sum : ℤ
deriving DecidableEq, Repr

/-- `pkg/stats/histogram.go`: `NewHistogram()`. -/
def NewHistogram : Histogram :=
  { MinVal := 0, MaxVal := 0, Counts := List.replicate numBuckets 0,
    TotalCount := 0, MinSeen := maxInt64, MaxSeen := 0, Sum := 0 }

/-- The binary search inside `findBucket` (`pkg/stats/histogram.go` lines
166-175): `low`/`high` move as in the source; Go's `high = mid - 1` step with
`mid = 0` would make `high` negative and exit the loop, which in this `ℕ`
encoding is the explicit `mid = 0` exit (unreachable from `findBucket`, whose
`low` starts at 1000). -/
def bsearchGo (limits : List ℤ) (val : ℤ) (low high : ℕ) : ℕ :=
  if low ≤ high then
    let mid := (low + high) / 2
    if limits.getD mid 0 < val then bsearchGo limits val (mid + 1) high
    else if mid = 0 then low else bsearchGo limits val low (mid - 1)
  else low
termination_by high + 1 - low
decreasing_by
  · omega
  · omega

/-- `pkg/stats/histogram.go`: `findBucket` (the receiver is unused by the
source method).  Values below the linear threshold index their own bucket
(`return int(val)`; `Record` only calls this with `val ≥ 0`); otherwise a
binary search over `bucketLimits`, clamped to the last bucket. -/
def findBucket (val : ℤ) : ℕ :=
  if val < linearThreshold then val.toNat
  else
    let low := bsearchGo bucketLimits val 1000 (numBuckets - 1)
    if numBuckets ≤ low then numBuckets - 1 else low

/-- `pkg/stats/histogram.go`: `Record`.  Negative values return early;
otherwise count, sum, min/max and the bucket of `findBucket` are updated. -/
def Histogram.Record (h : Histogram) (valUs : ℤ) : Histogram :=
  if valUs < 0 then h
  else
    { h with
      TotalCount := h.TotalCount + 1
      Sum := h.Sum + valUs
      MinSeen := if valUs < h.MinSeen then valUs else h.MinSeen
      MaxSeen := if h.MaxSeen < valUs then valUs else h.MaxSeen
      Counts := h.Counts.set (findBucket valUs)
        (h.Counts.getD (findBucket valUs) 0 + 1) }

/-- `pkg/stats/histogram.go`: `Merge`.  An empty `other` leaves `h` alone; an
empty `h` becomes a copy of `other`; otherwise counts, sums and extrema are
combined (`h.Counts[i] += other.Counts[i]` over `other`'s indices). -/
def Histogram.Merge (h other : Histogram) : Histogram :=
  if other.TotalCount = 0 then h
  else if h.TotalCount = 0 then other
  else
    { h with
      TotalCount := h.TotalCount + other.TotalCount
      Sum := h.Sum + other.Sum
      MinSeen := if other.MinSeen < h.MinSeen then other.MinSeen else h.MinSeen
      MaxSeen := if h.MaxSeen < other.MaxSeen then other.MaxSeen else h.MaxSeen
      Counts := h.Counts.zipWith (· + ·) other.Counts }

/-- The scan loop of `ValueAtQuantile` (`pkg/stats/histogram.go` lines
209-214) over the pairs `(Counts[i], bucketLimits[i])`: accumulate counts and
return the first limit whose cumulative count reaches the target; `none`
models falling off the end of the loop. -/
def vaqLoop : List (ℤ × ℤ) → ℤ → ℤ → Option ℤ
  | [], _, _ => none
  | (c, l) :: rest, target, current =>
    if target ≤ current + c then some l else vaqLoop rest target (current + c)

/-- `pkg/stats/histogram.go`: `ValueAtQuantile`.  `target` is
`int64(float64(h.TotalCount) * q)`; on loop fall-through the source
returns `h.MaxSeen`. -/
def Histogram.ValueAtQuantile (h : Histogram) (q : ℚ) : ℤ :=
  if h.TotalCount = 0 then 0
  else
    match vaqLoop (h.Counts.zip bucketLimits) (ratTrunc ((h.TotalCount : ℚ) * q)) 0 with
    | some l => l
    | none => h.MaxSeen

/-- `pkg/stats/histogram.go`: `Mean`. -/
def Histogram.Mean (h : Histogram) : ℚ :=
  if h.TotalCount = 0 then 0 else (h.Sum : ℚ) / (h.TotalCount : ℚ)

/-- The histogram obtained by recording a list of values into a fresh
`NewHistogram`, in order. -/
def histFromList (xs : List ℤ) : Histogram :=
  xs.foldl Histogram.Record NewHistogram

end Stats

namespace Stats

/-! ### Facts about the bucket-limit table -/

theorem bucketLimits_length : numBuckets = 1001 + (expPart 200 1000 1).length := by
  rw [numBuckets, bucketLimits, List.length_append, List.length_map, List.length_range]

theorem numBuckets_ge : 1001 ≤ numBuckets := by
  rw [bucketLimits_length]; omega

theorem numBuckets_pos : 0 < numBuckets := lt_of_lt_of_le (by norm_num) numBuckets_ge

theorem expPart_le_bound :
    ∀ (fuel num den : ℕ), 0 < den → ∀ x ∈ expPart fuel num den, x ≤ 66000000 := by
  intro fuel
  induction fuel with
  | zero => intro num den _ x hx; simp [expPart] at hx
  | succ n ih =>
    intro num den hden x hx
    rw [expPart] at hx
    by_cases hg : num < expLimit * den
    · rw [if_pos hg] at hx
      rcases List.mem_cons.mp hx with h | h
      · subst h
        have h1 : num * 11 ≤ expLimit * den * 11 := by nlinarith
        have h2 : num * 11 / (den * 10) ≤ expLimit * den * 11 / (den * 10) :=
          Nat.div_le_div_right h1
        have h3 : expLimit * den * 11 / (den * 10) = 66000000 := by
          have he : expLimit * den * 11 = 66000000 * (den * 10) := by
            simp only [expLimit]; ring
          rw [he, Nat.mul_div_cancel _ (show (0:ℕ) < den * 10 by omega)]
        have := le_trans h2 (le_of_eq h3)
        exact_mod_cast this
      · exact ih (num * 11) (den * 10) (by omega) x h
    · rw [if_neg hg] at hx; simp at hx

theorem bucketLimits_le_bound : ∀ x ∈ bucketLimits, x ≤ 66000000 := by
  intro x hx
  rcases List.mem_append.mp hx with h | h
  · rcases List.mem_map.mp h with ⟨i, hi, rfl⟩
    have hi' : i < 1001 := by simpa using hi
    omega
  · exact expPart_le_bound 200 1000 1 (by norm_num) x h

theorem expPart_lower_bound :
    ∀ (fuel num den : ℕ), 0 < den →
      ∀ x ∈ expPart fuel num den, ((num * 11 / (den * 10) : ℕ) : ℤ) ≤ x := by
  intro fuel
  induction fuel with
  | zero => intro num den _ x hx; simp [expPart] at hx
  | succ n ih =>
    intro num den hden x hx
    rw [expPart] at hx
    by_cases hg : num < expLimit * den
    · rw [if_pos hg] at hx
      rcases List.mem_cons.mp hx with h | h
      · subst h; rfl
      · have h1 := ih (num * 11) (den * 10) (by omega) x h
        refine le_trans ?_ h1
        have e1 : num * 11 / (den * 10) = num * 11 * 10 / (den * 10 * 10) := by
          rw [Nat.mul_div_mul_right _ _ (by norm_num : (0:ℕ) < 10)]
        have e2 : num * 11 * 10 / (den * 10 * 10) ≤ num * 11 * 11 / (den * 10 * 10) :=
          Nat.div_le_div_right (by nlinarith)
        rw [e1]
        exact_mod_cast e2
    · rw [if_neg hg] at hx; simp at hx

theorem expPart_chain :
    ∀ (fuel num den : ℕ), 0 < den → List.Chain' (· ≤ ·) (expPart fuel num den) := by
  intro fuel
  induction fuel with
  | zero => intro num den _; simp [expPart]
  | succ n ih =>
    intro num den hden
    rw [expPart]
    by_cases hg : num < expLimit * den
    · rw [if_pos hg]
      rw [List.chain'_cons']
      constructor
      · intro b hb
        have hbmem : b ∈ expPart n (num * 11) (den * 10) := List.mem_of_mem_head? hb
        have h1 := expPart_lower_bound n (num * 11) (den * 10) (by omega) b hbmem
        refine le_trans ?_ h1
        have e1 : num * 11 / (den * 10) = num * 11 * 10 / (den * 10 * 10) := by
          rw [Nat.mul_div_mul_right _ _ (by norm_num : (0:ℕ) < 10)]
        have e2 : num * 11 * 10 / (den * 10 * 10) ≤ num * 11 * 11 / (den * 10 * 10) :=
          Nat.div_le_div_right (by nlinarith)
        rw [e1]
        exact_mod_cast e2
      · exact ih (num * 11) (den * 10) (by omega)
    · rw [if_neg hg]; simp

theorem bucketLimits_pairwise : List.Pairwise (· ≤ ·) bucketLimits := by
  rw [bucketLimits, List.pairwise_append]
  refine ⟨?_, ?_, ?_⟩
  · refine List.pairwise_map.mpr ?_
    refine List.Pairwise.imp ?_ (List.pairwise_lt_range 1001)
    intro a b h
    exact_mod_cast le_of_lt h
  · exact List.chain'_iff_pairwise.mp (expPart_chain 200 1000 1 (by norm_num))
  · intro x hx y hy
    rcases List.mem_map.mp hx with ⟨i, hi, rfl⟩
    have hi' : i < 1001 := by simpa using hi
    have h1 := expPart_lower_bound 200 1000 1 (by norm_num) y hy
    have : ((1000 * 11 / (1 * 10) : ℕ) : ℤ) = 1100 := by norm_num
    rw [this] at h1
    omega

end Stats

namespace Stats

/-! ### Small list helpers -/

theorem sum_set_getD_add_one :
    ∀ (l : List ℤ) (i : ℕ), i < l.length →
      (l.set i (l.getD i 0 + 1)).sum = l.sum + 1 := by
  intro l
  induction l with
  | nil => intro i hi; simp at hi
  | cons a t ih =>
    intro i hi
    cases i with
    | zero => simp [List.getD]; ring
    | succ n =>
      have hn : n < t.length := by simpa using hi
      simp only [List.set, List.getD_cons_succ, List.sum_cons]
      rw [ih n hn]
      ring

theorem getD_set_self (l : List ℤ) (i : ℕ) (x : ℤ) (hi : i < l.length) :
    (l.set i x).getD i 0 = x := by
  simp [List.getD, List.getElem?_set_self', hi]

theorem getD_set_ne (l : List ℤ) (i j : ℕ) (x : ℤ) (hij : i ≠ j) :
    (l.set i x).getD j 0 = l.getD j 0 := by
  simp [List.getD, List.getElem?_set_ne hij]

theorem getD_replicate_zero (n i : ℕ) : ((List.replicate n (0:ℤ)).getD i 0) = 0 := by
  rcases lt_or_le i n with h | h
  · simp [List.getD, List.getElem?_replicate, h]
  · have hlen : (List.replicate n (0:ℤ)).length ≤ i := by simpa using h
    simp [List.getD, List.getElem?_eq_none hlen]

/-! ### The well-formedness invariant of reachable histograms -/

/-- The properties every histogram built by `NewHistogram` + `Record` has. -/
def HistWF (h : Histogram) : Prop :=
  0 ≤ h.TotalCount ∧ (h.TotalCount = 0 → h = NewHistogram) ∧
    h.MinSeen ≤ maxInt64 ∧ 0 ≤ h.MaxSeen ∧ h.MinVal = 0 ∧ h.MaxVal = 0 ∧
    h.Counts.length = numBuckets ∧ h.Counts.sum = h.TotalCount

theorem histWF_new : HistWF NewHistogram := by
  refine ⟨le_refl 0, fun _ => rfl, le_refl _, le_refl 0, rfl, rfl, ?_, ?_⟩
  · simp [NewHistogram]
  · simp [NewHistogram]

theorem findBucket_lt_numBuckets (v : ℤ) : findBucket v < numBuckets := by
  have hnb := numBuckets_ge
  rw [findBucket]
  by_cases hv : v < linearThreshold
  · rw [if_pos hv]
    have hv' : v < 1000 := hv
    omega
  · rw [if_neg hv]
    dsimp only
    by_cases hc : numBuckets ≤ bsearchGo bucketLimits v 1000 (numBuckets - 1)
    · rw [if_pos hc]; omega
    · rw [if_neg hc]; omega

theorem record_wf (h : Histogram) (v : ℤ) (hw : HistWF h) : HistWF (h.Record v) := by
  obtain ⟨h0, hz, hmin, hmax, hv1, hv2, hlen, hsum⟩ := hw
  rw [Histogram.Record]
  by_cases hneg : v < 0
  · rw [if_pos hneg]; exact ⟨h0, hz, hmin, hmax, hv1, hv2, hlen, hsum⟩
  · rw [if_neg hneg]
    refine ⟨?_, ?_, ?_, ?_, hv1, hv2, ?_, ?_⟩ <;> dsimp only
    · omega
    · intro hc; omega
    · by_cases hlt : v < h.MinSeen
      · rw [if_pos hlt]; omega
      · rw [if_neg hlt]; exact hmin
    · by_cases hlt : h.MaxSeen < v
      · rw [if_pos hlt]; omega
      · rw [if_neg hlt]; exact hmax
    · simpa using hlen
    · rw [sum_set_getD_add_one _ _ (by rw [hlen]; exact findBucket_lt_numBuckets v)]
      omega

theorem foldl_record_wf (xs : List ℤ) (h : Histogram) (hw : HistWF h) :
    HistWF (xs.foldl Histogram.Record h) := by
  induction xs generalizing h with
  | nil => simpa using hw
  | cons a t ih => exact ih _ (record_wf h a hw)

theorem histFromList_wf (xs : List ℤ) : HistWF (histFromList xs) :=
  foldl_record_wf xs NewHistogram histWF_new

end Stats

namespace Stats

theorem bsearchGo_all_lt (limits : List ℤ) (val : ℤ)
    (hall : ∀ i, i < limits.length → limits.getD i 0 < val) :
    ∀ (n low high : ℕ), high + 1 - low ≤ n → high < limits.length →
      bsearchGo limits val low high = max low (high + 1) := by
  intro n
  induction n with
  | zero =>
    intro low high hm hh
    rw [bsearchGo]
    rw [if_neg (by omega)]
    omega
  | succ k ih =>
    intro low high hm hh
    rw [bsearchGo]
    by_cases hlh : low ≤ high
    · rw [if_pos hlh]
      have hmid : (low + high) / 2 ≤ high := by omega
      have hmid2 : low ≤ (low + high) / 2 := by omega
      rw [if_pos (hall _ (by omega))]
      rw [ih ((low + high) / 2 + 1) high (by omega) hh]
      omega
    · rw [if_neg hlh]
      omega

theorem findBucket_zero : findBucket 0 = 0 := by decide

theorem findBucket_large (v : ℤ) (hv : 66000000 < v) : findBucket v = numBuckets - 1 := by
  have hnb := numBuckets_ge
  rw [findBucket]
  rw [if_neg (by rw [linearThreshold]; omega)]
  dsimp only
  have hall : ∀ i, i < bucketLimits.length → bucketLimits.getD i 0 < v := by
    intro i hi
    rw [List.getD_eq_getElem _ _ hi]
    have hmem : bucketLimits[i] ∈ bucketLimits := List.getElem_mem hi
    have := bucketLimits_le_bound _ hmem
    omega
  have hlen : bucketLimits.length = numBuckets := rfl
  rw [bsearchGo_all_lt bucketLimits v hall (numBuckets + 1) 1000 (numBuckets - 1)
    (by omega) (by omega)]
  rw [if_pos (by omega)]

end Stats

/-- C9: on an empty histogram (no values recorded, so `TotalCount = 0`),
`ValueAtQuantile` returns 0 for every quantile `q` (in particular every
`q ∈ [0,1]`) and `Mean` returns 0; neither reads the `MinSeen` sentinel. -/
theorem claim_C9 :
    ∀ q : ℚ, (Stats.histFromList []).ValueAtQuantile q = 0 ∧
      (Stats.histFromList []).Mean = 0 := by
  intro q
  have hT : (Stats.histFromList []).TotalCount = 0 := rfl
  constructor
  · rw [Stats.Histogram.ValueAtQuantile, if_pos hT]
  · rw [Stats.Histogram.Mean, if_pos hT]

/-- C4 (amended): `Record` drops only negative values.  For every
nonnegative `v` it increments `TotalCount` and the bucket `findBucket v` of
`Counts`; a recorded 0 lands in bucket 0 (whose limit is 0 µs), not in the
1-µs bucket, and any value above the largest tracked limit — in particular
any value exceeding one hour — is clamped into the last bucket and still
counted rather than silently dropped. -/
theorem claim_C4 (h : Stats.Histogram) (v : ℤ) (hv : 0 ≤ v) :
    (h.Record v).TotalCount = h.TotalCount + 1 ∧
    (h.Record v).Counts
      = h.Counts.set (Stats.findBucket v) (h.Counts.getD (Stats.findBucket v) 0 + 1) ∧
    Stats.findBucket 0 = 0 ∧
    (3600000000 < v → Stats.findBucket v = Stats.numBuckets - 1) := by
  rw [Stats.Histogram.Record, if_neg (by omega)]
  refine ⟨rfl, rfl, Stats.findBucket_zero, ?_⟩
  intro hbig
  exact Stats.findBucket_large v (by omega)

theorem claim_C4_witness :
    (Stats.NewHistogram.Record 3600000001).TotalCount
        = Stats.NewHistogram.TotalCount + 1 ∧
    (Stats.NewHistogram.Record 3600000001).Counts
      = Stats.NewHistogram.Counts.set (Stats.findBucket 3600000001)
          (Stats.NewHistogram.Counts.getD (Stats.findBucket 3600000001) 0 + 1) ∧
    Stats.findBucket 0 = 0 ∧
    ((3600000000:ℤ) < 3600000001 → Stats.findBucket 3600000001 = Stats.numBuckets - 1) :=
  claim_C4 Stats.NewHistogram 3600000001 (by norm_num)

/-- C4 counterexample: the claim says a recorded 0 is clamped up to 1 (the
1-µs bucket) and that values exceeding the 1-hour maximum are silently
dropped.  In fact recording 0 puts the count into bucket 0 and leaves the
1-µs bucket empty, and recording 3600000001 µs (just over one hour) still
counts: `TotalCount` becomes 1, not 0. -/
theorem claim_C4_cex :
    (Stats.histFromList [0]).Counts.getD 0 0 = 1 ∧
    (Stats.histFromList [0]).Counts.getD 1 0 = 0 ∧
    (Stats.histFromList [3600000001]).TotalCount = 1 := by
  have hrec : Stats.histFromList [0] = Stats.NewHistogram.Record 0 := rfl
  have hcounts : (Stats.NewHistogram.Record 0).Counts
      = Stats.NewHistogram.Counts.set 0 (Stats.NewHistogram.Counts.getD 0 0 + 1) := by
    rw [Stats.Histogram.Record, if_neg (by omega)]
    rw [Stats.findBucket_zero]
  have hnewc : Stats.NewHistogram.Counts = List.replicate Stats.numBuckets 0 := by
    simp only [Stats.NewHistogram]
  refine ⟨?_, ?_, ?_⟩
  · rw [hrec, hcounts, hnewc, Stats.getD_replicate_zero]
    rw [Stats.getD_set_self (List.replicate Stats.numBuckets 0) 0 (0 + 1)
      (by simpa using Stats.numBuckets_pos)]
    norm_num
  · rw [hrec, hcounts, hnewc]
    rw [Stats.getD_set_ne (List.replicate Stats.numBuckets 0) 0 1 _ (by omega)]
    rw [Stats.getD_replicate_zero]
  · have hr : Stats.histFromList [3600000001] = Stats.NewHistogram.Record 3600000001 := rfl
    rw [hr, Stats.Histogram.Record, if_neg (by omega)]
    dsimp only
    simp only [Stats.NewHistogram]
    norm_num

namespace Stats

/-! ### Algebra of Merge on reachable histograms -/

theorem zipWith_add_assoc :
    ∀ (a b c : List ℤ),
      List.zipWith (· + ·) (List.zipWith (· + ·) a b) c
        = List.zipWith (· + ·) a (List.zipWith (· + ·) b c) := by
  intro a
  induction a with
  | nil => intro b c; simp
  | cons x t ih =>
    intro b c
    cases b with
    | nil => simp
    | cons y tb =>
      cases c with
      | nil => simp
      | cons z tc => simp [ih, add_assoc]

theorem sum_zipWith_add :
    ∀ (a b : List ℤ), a.length = b.length →
      (List.zipWith (· + ·) a b).sum = a.sum + b.sum := by
  intro a
  induction a with
  | nil =>
    intro b hb
    cases b with
    | nil => simp
    | cons y tb => simp at hb
  | cons x t ih =>
    intro b hb
    cases b with
    | nil => simp at hb
    | cons y tb =>
      have : t.length = tb.length := by simpa using hb
      simp [ih tb this]
      ring

theorem new_totalCount : NewHistogram.TotalCount = 0 := by simp only [NewHistogram]

theorem merge_totalCount (a b : Histogram) :
    (a.Merge b).TotalCount = a.TotalCount + b.TotalCount := by
  rw [Histogram.Merge]
  by_cases hb : b.TotalCount = 0
  · rw [if_pos hb]; omega
  · rw [if_neg hb]
    by_cases ha : a.TotalCount = 0
    · rw [if_pos ha]; omega
    · rw [if_neg ha]

theorem merge_new_right (a : Histogram) : a.Merge NewHistogram = a := by
  rw [Histogram.Merge, if_pos new_totalCount]

theorem merge_new_left (b : Histogram) (hwb : HistWF b) : NewHistogram.Merge b = b := by
  rw [Histogram.Merge]
  by_cases hb : b.TotalCount = 0
  · rw [if_pos hb, (hwb.2.1 hb)]
  · rw [if_neg hb, if_pos new_totalCount]

theorem merge_pos_pos (a b : Histogram) (ha : a.TotalCount ≠ 0) (hb : b.TotalCount ≠ 0) :
    a.Merge b =
      { a with
        TotalCount := a.TotalCount + b.TotalCount
        Sum := a.Sum + b.Sum
        MinSeen := if b.MinSeen < a.MinSeen then b.MinSeen else a.MinSeen
        MaxSeen := if a.MaxSeen < b.MaxSeen then b.MaxSeen else a.MaxSeen
        Counts := a.Counts.zipWith (· + ·) b.Counts } := by
  rw [Histogram.Merge, if_neg hb, if_neg ha]

theorem merge_wf (a b : Histogram) (hwa : HistWF a) (hwb : HistWF b) :
    HistWF (a.Merge b) := by
  by_cases hb : b.TotalCount = 0
  · rw [Histogram.Merge, if_pos hb]; exact hwa
  · by_cases ha : a.TotalCount = 0
    · rw [Histogram.Merge, if_neg hb, if_pos ha]; exact hwb
    · rw [merge_pos_pos a b ha hb]
      obtain ⟨a0, _, amin, amax, av1, av2, alen, asum⟩ := hwa
      obtain ⟨b0, _, bmin, bmax, bv1, bv2, blen, bsum⟩ := hwb
      refine ⟨?_, ?_, ?_, ?_, av1, av2, ?_, ?_⟩ <;> dsimp only
      · omega
      · intro hc; exact absurd hc (by omega)
      · split_ifs <;> omega
      · split_ifs <;> omega
      · rw [List.length_zipWith]; omega
      · rw [sum_zipWith_add a.Counts b.Counts (by omega)]; omega

theorem merge_comm (a b : Histogram) (hwa : HistWF a) (hwb : HistWF b) :
    a.Merge b = b.Merge a := by
  by_cases hb : b.TotalCount = 0
  · rw [hwb.2.1 hb, merge_new_right, merge_new_left a hwa]
  · by_cases ha : a.TotalCount = 0
    · rw [hwa.2.1 ha, merge_new_right, merge_new_left b hwb]
    · rw [merge_pos_pos a b ha hb, merge_pos_pos b a hb ha]
      obtain ⟨a0, _, amin, amax, av1, av2, alen, asum⟩ := hwa
      obtain ⟨b0, _, bmin, bmax, bv1, bv2, blen, bsum⟩ := hwb
      rw [Histogram.mk.injEq]
      refine ⟨?_, ?_, ?_, by omega, ?_, ?_, by omega⟩
      · rw [av1, bv1]
      · rw [av2, bv2]
      · exact List.zipWith_comm_of_comm _ (fun x y => by ring) _ _
      · split_ifs <;> omega
      · split_ifs <;> omega

theorem merge_assoc (a b c : Histogram)
    (hwa : HistWF a) (hwb : HistWF b) (hwc : HistWF c) :
    (a.Merge b).Merge c = a.Merge (b.Merge c) := by
  by_cases ha : a.TotalCount = 0
  · rw [hwa.2.1 ha, merge_new_left b hwb, merge_new_left (b.Merge c) (merge_wf b c hwb hwc)]
  · by_cases hb : b.TotalCount = 0
    · rw [hwb.2.1 hb, merge_new_right, merge_new_left c hwc]
    · by_cases hc : c.TotalCount = 0
      · rw [hwc.2.1 hc, merge_new_right, merge_new_right]
      · have hab : (a.Merge b).TotalCount ≠ 0 := by
          rw [merge_totalCount]
          have := hwa.1; have := hwb.1
          omega
        have hbc : (b.Merge c).TotalCount ≠ 0 := by
          rw [merge_totalCount]
          have := hwb.1; have := hwc.1
          omega
        rw [merge_pos_pos (a.Merge b) c hab hc, merge_pos_pos a (b.Merge c) ha hbc,
          merge_pos_pos a b ha hb, merge_pos_pos b c hb hc]
        rw [Histogram.mk.injEq]
        refine ⟨rfl, rfl, ?_, ?_, ?_, ?_, ?_⟩ <;> dsimp only
        · exact zipWith_add_assoc _ _ _
        · omega
        · split_ifs <;> omega
        · split_ifs <;> omega
        · omega

theorem foldl_record_totalCount (L : List ℤ) :
    ∀ h : Histogram, (∀ x ∈ L, 0 ≤ x) →
      (L.foldl Histogram.Record h).TotalCount = h.TotalCount + L.length := by
  induction L with
  | nil => intro h _; simp
  | cons a t ih =>
    intro h hL
    have ha : 0 ≤ a := hL a (by simp)
    rw [List.foldl_cons, ih _ (fun x hx => hL x (by simp [hx]))]
    rw [Histogram.Record, if_neg (by omega)]
    dsimp only
    simp [List.length_cons]
    omega

theorem histFromList_totalCount (L : List ℤ) (hL : ∀ x ∈ L, 0 ≤ x) :
    (histFromList L).TotalCount = L.length := by
  rw [histFromList, foldl_record_totalCount L NewHistogram hL, new_totalCount]
  omega

theorem merge_sum (a b : Histogram) (hwa : HistWF a) (hwb : HistWF b) :
    (a.Merge b).Sum = a.Sum + b.Sum := by
  by_cases hb : b.TotalCount = 0
  · have : b = NewHistogram := hwb.2.1 hb
    rw [Histogram.Merge, if_pos hb, this]
    simp only [NewHistogram]
    omega
  · by_cases ha : a.TotalCount = 0
    · have : a = NewHistogram := hwa.2.1 ha
      rw [Histogram.Merge, if_neg hb, if_pos ha, this]
      simp only [NewHistogram]
      omega
    · rw [merge_pos_pos a b ha hb]

theorem merge_minSeen (a b : Histogram) (hwa : HistWF a) (hwb : HistWF b) :
    (a.Merge b).MinSeen = min a.MinSeen b.MinSeen := by
  by_cases hb : b.TotalCount = 0
  · have hbn : b = NewHistogram := hwb.2.1 hb
    rw [Histogram.Merge, if_pos hb, hbn]
    have := hwa.2.2.1
    simp only [NewHistogram, maxInt64] at *
    omega
  · by_cases ha : a.TotalCount = 0
    · have han : a = NewHistogram := hwa.2.1 ha
      rw [Histogram.Merge, if_neg hb, if_pos ha, han]
      have := hwb.2.2.1
      simp only [NewHistogram, maxInt64] at *
      omega
    · rw [merge_pos_pos a b ha hb]
      dsimp only
      split_ifs <;> omega

theorem merge_maxSeen (a b : Histogram) (hwa : HistWF a) (hwb : HistWF b) :
    (a.Merge b).MaxSeen = max a.MaxSeen b.MaxSeen := by
  by_cases hb : b.TotalCount = 0
  · have hbn : b = NewHistogram := hwb.2.1 hb
    rw [Histogram.Merge, if_pos hb, hbn]
    have := hwa.2.2.2.1
    simp only [NewHistogram] at *
    omega
  · by_cases ha : a.TotalCount = 0
    · have han : a = NewHistogram := hwa.2.1 ha
      rw [Histogram.Merge, if_neg hb, if_pos ha, han]
      have := hwb.2.2.2.1
      simp only [NewHistogram] at *
      omega
    · rw [merge_pos_pos a b ha hb]
      dsimp only
      split_ifs <;> omega

end Stats

/-- C7: histogram merge is associative and commutative on histograms built by
recording: for any recording sequences A, B, C (nonnegative, as the `record`
contract requires), both groupings give the very same histogram (hence
identical per-bucket counts), the merged total count is `|A|+|B|+|C|`, and
merge preserves min (`MinSeen`), max (`MaxSeen`) and the sum of values. -/
theorem claim_C7 (A B C : List ℤ)
    (hA : ∀ x ∈ A, 0 ≤ x) (hB : ∀ x ∈ B, 0 ≤ x) (hC : ∀ x ∈ C, 0 ≤ x) :
    ((Stats.histFromList A).Merge (Stats.histFromList B)).Merge (Stats.histFromList C)
        = (Stats.histFromList A).Merge
            ((Stats.histFromList B).Merge (Stats.histFromList C)) ∧
    (Stats.histFromList A).Merge (Stats.histFromList B)
        = (Stats.histFromList B).Merge (Stats.histFromList A) ∧
    (((Stats.histFromList A).Merge (Stats.histFromList B)).Merge
        (Stats.histFromList C)).TotalCount = A.length + B.length + C.length ∧
    ((Stats.histFromList A).Merge (Stats.histFromList B)).Sum
        = (Stats.histFromList A).Sum + (Stats.histFromList B).Sum ∧
    ((Stats.histFromList A).Merge (Stats.histFromList B)).MinSeen
        = min (Stats.histFromList A).MinSeen (Stats.histFromList B).MinSeen ∧
    ((Stats.histFromList A).Merge (Stats.histFromList B)).MaxSeen
        = max (Stats.histFromList A).MaxSeen (Stats.histFromList B).MaxSeen := by
  have wA := Stats.histFromList_wf A
  have wB := Stats.histFromList_wf B
  have wC := Stats.histFromList_wf C
  refine ⟨Stats.merge_assoc _ _ _ wA wB wC, Stats.merge_comm _ _ wA wB, ?_,
    Stats.merge_sum _ _ wA wB, Stats.merge_minSeen _ _ wA wB,
    Stats.merge_maxSeen _ _ wA wB⟩
  rw [Stats.merge_totalCount, Stats.merge_totalCount,
    Stats.histFromList_totalCount A hA, Stats.histFromList_totalCount B hB,
    Stats.histFromList_totalCount C hC]

theorem claim_C7_witness :
    ((Stats.histFromList [1, 2]).Merge (Stats.histFromList [3])).Merge
        (Stats.histFromList [])
        = (Stats.histFromList [1, 2]).Merge
            ((Stats.histFromList [3]).Merge (Stats.histFromList [])) ∧
    (Stats.histFromList [1, 2]).Merge (Stats.histFromList [3])
        = (Stats.histFromList [3]).Merge (Stats.histFromList [1, 2]) ∧
    (((Stats.histFromList [1, 2]).Merge (Stats.histFromList [3])).Merge
        (Stats.histFromList [])).TotalCount
        = ([1, 2] : List ℤ).length + ([3] : List ℤ).length
            + ([] : List ℤ).length ∧
    ((Stats.histFromList [1, 2]).Merge (Stats.histFromList [3])).Sum
        = (Stats.histFromList [1, 2]).Sum + (Stats.histFromList [3]).Sum ∧
    ((Stats.histFromList [1, 2]).Merge (Stats.histFromList [3])).MinSeen
        = min (Stats.histFromList [1, 2]).MinSeen (Stats.histFromList [3]).MinSeen ∧
    ((Stats.histFromList [1, 2]).Merge (Stats.histFromList [3])).MaxSeen
        = max (Stats.histFromList [1, 2]).MaxSeen (Stats.histFromList [3]).MaxSeen :=
  claim_C7 [1, 2] [3] [] (by decide) (by decide) (by decide)

namespace Stats

/-! ### Quantile monotonicity -/

theorem map_fst_zip_eq :
    ∀ (a b : List ℤ), a.length = b.length → ((a.zip b).map Prod.fst) = a := by
  intro a
  induction a with
  | nil => intro b _; simp
  | cons x t ih =>
    intro b hb
    cases b with
    | nil => simp at hb
    | cons y tb => simp [ih tb (by simpa using hb)]

theorem map_snd_zip_eq :
    ∀ (a b : List ℤ), a.length = b.length → ((a.zip b).map Prod.snd) = b := by
  intro a
  induction a with
  | nil =>
    intro b hb
    cases b with
    | nil => simp
    | cons y tb => simp at hb
  | cons x t ih =>
    intro b hb
    cases b with
    | nil => simp at hb
    | cons y tb => simp [ih tb (by simpa using hb)]

theorem vaqLoop_some_mem :
    ∀ (pairs : List (ℤ × ℤ)) (t cur r : ℤ),
      vaqLoop pairs t cur = some r → r ∈ pairs.map Prod.snd := by
  intro pairs
  induction pairs with
  | nil => intro t cur r h; simp [vaqLoop] at h
  | cons p rest ih =>
    intro t cur r h
    obtain ⟨c, l⟩ := p
    rw [vaqLoop] at h
    by_cases hc : t ≤ cur + c
    · rw [if_pos hc] at h
      simp at h
      simp [h]
    · rw [if_neg hc] at h
      simp only [List.map_cons, List.mem_cons]
      exact Or.inr (ih _ _ _ h)

theorem vaqLoop_reaches :
    ∀ (pairs : List (ℤ × ℤ)) (t cur : ℤ), pairs ≠ [] →
      t ≤ cur + (pairs.map Prod.fst).sum →
      ∃ r, vaqLoop pairs t cur = some r := by
  intro pairs
  induction pairs with
  | nil => intro t cur h; exact absurd rfl h
  | cons p rest ih =>
    intro t cur _ hsum
    obtain ⟨c, l⟩ := p
    rw [vaqLoop]
    by_cases hc : t ≤ cur + c
    · exact ⟨l, by rw [if_pos hc]⟩
    · rw [if_neg hc]
      cases rest with
      | nil =>
        simp at hsum
        omega
      | cons q qs =>
        refine ih t (cur + c) (by simp) ?_
        simp only [List.map_cons, List.sum_cons] at hsum ⊢
        omega

theorem vaqLoop_mono :
    ∀ (pairs : List (ℤ × ℤ)) (t1 t2 cur r1 r2 : ℤ),
      List.Pairwise (· ≤ ·) (pairs.map Prod.snd) →
      t1 ≤ t2 → t2 ≤ cur + (pairs.map Prod.fst).sum →
      vaqLoop pairs t1 cur = some r1 → vaqLoop pairs t2 cur = some r2 →
      r1 ≤ r2 := by
  intro pairs
  induction pairs with
  | nil => intro t1 t2 cur r1 r2 _ _ _ h1; simp [vaqLoop] at h1
  | cons p rest ih =>
    intro t1 t2 cur r1 r2 hpw h12 hsum h1 h2
    obtain ⟨c, l⟩ := p
    rw [vaqLoop] at h1 h2
    by_cases hc2 : t2 ≤ cur + c
    · rw [if_pos hc2] at h2
      rw [if_pos (by omega)] at h1
      simp at h1 h2
      omega
    · rw [if_neg hc2] at h2
      by_cases hc1 : t1 ≤ cur + c
      · rw [if_pos hc1] at h1
        simp at h1
        have hr2 : r2 ∈ rest.map Prod.snd := vaqLoop_some_mem rest t2 (cur + c) r2 h2
        simp only [List.map_cons] at hpw
        have := (List.pairwise_cons.mp hpw).1 r2 hr2
        omega
      · rw [if_neg hc1] at h1
        refine ih t1 t2 (cur + c) r1 r2 ?_ h12 ?_ h1 h2
        · simp only [List.map_cons] at hpw
          exact (List.pairwise_cons.mp hpw).2
        · simp only [List.map_cons, List.sum_cons] at hsum
          omega

end Stats

/-- C8: quantile lookup is monotone.  For every histogram built by recording
a sequence of values, and every pair of quantiles `0 ≤ q₁ < q₂ ≤ 1`,
`ValueAtQuantile q₁ ≤ ValueAtQuantile q₂`. -/
theorem claim_C8 (L : List ℤ) (q1 q2 : ℚ)
    (h0 : 0 ≤ q1) (h12 : q1 < q2) (h21 : q2 ≤ 1) :
    (Stats.histFromList L).ValueAtQuantile q1
      ≤ (Stats.histFromList L).ValueAtQuantile q2 := by
  obtain ⟨w0, -, -, -, -, -, wlen, wsum⟩ := Stats.histFromList_wf L
  set h := Stats.histFromList L with hh
  rw [Stats.Histogram.ValueAtQuantile, Stats.Histogram.ValueAtQuantile]
  by_cases hT : h.TotalCount = 0
  · rw [if_pos hT]
    rw [if_pos hT]
  · rw [if_neg hT, if_neg hT]
    have hTpos : 0 < h.TotalCount := lt_of_le_of_ne w0 (Ne.symm hT)
    have hTQ : (0:ℚ) ≤ (h.TotalCount : ℚ) := by exact_mod_cast le_of_lt hTpos
    have hq20 : (0:ℚ) ≤ q2 := le_trans h0 (le_of_lt h12)
    have hq1 : (0:ℚ) ≤ (h.TotalCount : ℚ) * q1 := mul_nonneg hTQ h0
    have hq2 : (0:ℚ) ≤ (h.TotalCount : ℚ) * q2 := mul_nonneg hTQ hq20
    have ht1 : ratTrunc ((h.TotalCount : ℚ) * q1) = ⌊(h.TotalCount : ℚ) * q1⌋ := by
      rw [ratTrunc, if_neg (not_lt.mpr hq1)]
    have ht2 : ratTrunc ((h.TotalCount : ℚ) * q2) = ⌊(h.TotalCount : ℚ) * q2⌋ := by
      rw [ratTrunc, if_neg (not_lt.mpr hq2)]
    have hle : ratTrunc ((h.TotalCount : ℚ) * q1) ≤ ratTrunc ((h.TotalCount : ℚ) * q2) := by
      rw [ht1, ht2]
      exact Int.floor_le_floor (mul_le_mul_of_nonneg_left (le_of_lt h12) hTQ)
    have hcap : ratTrunc ((h.TotalCount : ℚ) * q2) ≤ h.TotalCount := by
      rw [ht2]
      have h1 : (h.TotalCount : ℚ) * q2 ≤ (h.TotalCount : ℚ) :=
        mul_le_of_le_one_right hTQ h21
      calc ⌊(h.TotalCount : ℚ) * q2⌋ ≤ ⌊(h.TotalCount : ℚ)⌋ := Int.floor_le_floor h1
        _ = h.TotalCount := Int.floor_intCast _
    have hlen2 : h.Counts.length = Stats.bucketLimits.length := wlen
    have hfst : ((h.Counts.zip Stats.bucketLimits).map Prod.fst).sum = h.TotalCount := by
      rw [Stats.map_fst_zip_eq h.Counts Stats.bucketLimits hlen2, wsum]
    have hsnd : (h.Counts.zip Stats.bucketLimits).map Prod.snd = Stats.bucketLimits :=
      Stats.map_snd_zip_eq h.Counts Stats.bucketLimits hlen2
    have hne : h.Counts.zip Stats.bucketLimits ≠ [] := by
      have hlp : 0 < (h.Counts.zip Stats.bucketLimits).length := by
        rw [List.length_zip, hlen2, Nat.min_self]
        exact Stats.numBuckets_pos
      exact List.ne_nil_of_length_pos hlp
    obtain ⟨r1, e1⟩ := Stats.vaqLoop_reaches (h.Counts.zip Stats.bucketLimits)
      (ratTrunc ((h.TotalCount : ℚ) * q1)) 0 hne (by omega)
    obtain ⟨r2, e2⟩ := Stats.vaqLoop_reaches (h.Counts.zip Stats.bucketLimits)
      (ratTrunc ((h.TotalCount : ℚ) * q2)) 0 hne (by omega)
    rw [e1, e2]
    refine Stats.vaqLoop_mono _ _ _ 0 r1 r2 ?_ hle (by omega) e1 e2
    rw [hsnd]
    exact Stats.bucketLimits_pairwise

theorem claim_C8_witness :
    (Stats.histFromList [5, 7]).ValueAtQuantile (1/2)
      ≤ (Stats.histFromList [5, 7]).ValueAtQuantile 1 :=
  claim_C8 [5, 7] (1/2) 1 (by norm_num) (by norm_num) (by norm_num)

namespace Analyze

/-! ### The sustain analyzer (`pkg/analyze/sustain.go`) -/

/-- `EventStart EventType = 1`. -/
def EventStart : ℤ := 1

/-- `EventEnd EventType = -1`. -/
def EventEnd : ℤ := -1

/-- `pkg/analyze/sustain.go`: an `Event` of the priority queue.  `Rate` is the
`float64` IOPS contribution `1e9 / duration`; `Etype` stands for the Go field
`Type`, which Lean reserves. -/
structure Event where
  Time : ℤ
  Etype : ℤ
  Rate : ℚ
deriving Repr

/-- `EventPQ.Less` (`pkg/analyze/sustain.go` lines 28-36): order by time, and
at equal times by type, so Ends (`-1`) are processed before Starts (`1`). -/
def eventLess (a b : Event) : Bool :=
  if a.Time = b.Time then decide (a.Etype < b.Etype) else decide (a.Time < b.Time)

/-- The heap is modelled as a list kept sorted by `eventLess` (heap pops are
exactly the minima under `Less`; the order among fully equal keys is
unspecified in both the heap and this model). -/
def insertEvent (e : Event) : List Event → List Event
  | [] => [e]
  | x :: rest => if eventLess x e then x :: insertEvent e rest else e :: x :: rest

/-- `pkg/engine`: a completion `Span` in monotonic nanoseconds.
(`Stop` stands for the Go field `End`, which Lean reserves.) -/
structure Span where
  Start : ℤ
  Stop : ℤ
deriving Repr

/-- `pkg/engine`: `TraceMsg`. -/
structure TraceMsg where
  WorkerID : ℤ
  Spans : List Span
  MinStart : ℤ
deriving Repr

/-- `pkg/analyze/sustain.go`: the `SustainAnalyzer` state.  `workerMinStarts`
is the Go map as an association list (one entry per worker id), `histogram`
maps an IOPS bin to accumulated nanoseconds (the Go map's zero value is 0).
The source also declares a `bool` field `initialized` that no code reads or
writes; it is omitted here. -/
structure SustainAnalyzer where
  expectedWorkers : ℤ
  workerMinStarts : List (ℤ × ℤ)
  eventPQ : List Event
  currentRate : ℚ
  lastTime : ℤ
  histogram : ℤ → ℤ

/-- `NewSustainAnalyzer` (`pkg/analyze/sustain.go` lines 61-69): note
`lastTime` starts at 0, not at the first event's timestamp. -/
def NewSustainAnalyzer (workers : ℤ) : SustainAnalyzer :=
  { expectedWorkers := workers, workerMinStarts := [], eventPQ := [],
    currentRate := 0, lastTime := 0, histogram := fun _ => 0 }

/-- Go map assignment `m[k] = v` for the worker-min-start map. -/
def mapSet (m : List (ℤ × ℤ)) (k v : ℤ) : List (ℤ × ℤ) :=
  if m.any (fun p => p.1 == k) then m.map (fun p => if p.1 == k then (k, v) else p)
  else m ++ [(k, v)]

/-- The loop body of `processEventsUntil` (`pkg/analyze/sustain.go` lines
117-148), recursing over the sorted queue: stop at the first event past the
limit; otherwise credit `evt.Time - lastTime` ns to bin `round(currentRate)`
when time advances (the source's inner `delta > 0` test is implied by the
outer `evt.Time > lastTime` test), apply the rate change, and clamp small
rates to 0.  Returns (remaining queue, currentRate, lastTime, histogram). -/
def processLoop : List Event → ℤ → ℚ → ℤ → (ℤ → ℤ) → (List Event × ℚ × ℤ × (ℤ → ℤ))
  | [], _, rate, lastT, hist => ([], rate, lastT, hist)
  | evt :: rest, limit, rate, lastT, hist =>
    if limit < evt.Time then (evt :: rest, rate, lastT, hist)
    else
      let lastT2 := if lastT < evt.Time then evt.Time else lastT
      let hist2 :=
        if lastT < evt.Time then
          fun b => if b = roundQ rate then hist b + (evt.Time - lastT) else hist b
        else hist
      let rate2 := if evt.Etype = EventStart then rate + evt.Rate else rate - evt.Rate
      let rate3 := if rate2 < 1/1000 then 0 else rate2
      processLoop rest limit rate3 lastT2 hist2

/-- `processEventsUntil`. -/
def processEventsUntil (a : SustainAnalyzer) (limit : ℤ) : SustainAnalyzer :=
  match processLoop a.eventPQ limit a.currentRate a.lastTime a.histogram with
  | (pq, rate, lastT, hist) =>
    { a with
      eventPQ := pq
      currentRate := rate
      lastTime := lastT
      histogram := hist }

/-- Pushing the events of a message's spans (`processMsg` step 2): spans of
nonpositive duration are skipped, the rest push a Start and an End event with
rate `1e9 / duration`. -/
def pushSpans (pq : List Event) (spans : List Span) : List Event :=
  spans.foldl
    (fun acc s =>
      let dur : ℤ := s.Stop - s.Start
      if dur ≤ 0 then acc
      else
        let rate : ℚ := 1000000000 / (dur : ℚ)
        insertEvent ⟨s.Stop, EventEnd, rate⟩
          (insertEvent ⟨s.Start, EventStart, rate⟩ acc))
    pq

/-- `processMsg` (`pkg/analyze/sustain.go` lines 80-110): record the worker's
min-start, push the span events, and once all expected workers have reported,
process events up to the minimum of all min-starts. -/
def processMsg (a : SustainAnalyzer) (msg : TraceMsg) : SustainAnalyzer :=
  let a2 := { a with
    workerMinStarts := mapSet a.workerMinStarts msg.WorkerID msg.MinStart
    eventPQ := pushSpans a.eventPQ msg.Spans }
  if (a2.workerMinStarts.length : ℤ) < a2.expectedWorkers then a2
  else
    let safeHorizon :=
      a2.workerMinStarts.foldl (fun acc p => if p.2 < acc then p.2 else acc) maxInt64
    processEventsUntil a2 safeHorizon

/-- `Run` (`pkg/analyze/sustain.go` lines 71-78): consume every message, then
flush (process everything left with limit `math.MaxInt64`). -/
def Run (a : SustainAnalyzer) (msgs : List TraceMsg) : SustainAnalyzer :=
  processEventsUntil (msgs.foldl processMsg a) maxInt64

end Analyze

/-- C2: the claim (and §9 of the specification) requires `lastTime` to start
at the first processed event's timestamp, so that nothing is credited for
`[0, t)`.  The source zero-initializes `lastTime`, so the first processed
event at `t = 100` ns credits the whole interval `[0, 100)` to the 0-IOPS
bin: after feeding one worker a single span `[100, 200]` ns and flushing,
`histogram[0] = 100` instead of the claimed 0 (the span's own 10⁷-IOPS bin
correctly gets 100 ns). -/
theorem claim_C2 :
    (Analyze.Run (Analyze.NewSustainAnalyzer 1)
        [⟨0, [⟨100, 200⟩], maxInt64⟩]).histogram 0 = 100 ∧
    (Analyze.Run (Analyze.NewSustainAnalyzer 1)
        [⟨0, [⟨100, 200⟩], maxInt64⟩]).histogram 10000000 = 100 := by
  norm_num [Analyze.Run, Analyze.processMsg, Analyze.NewSustainAnalyzer,
    Analyze.mapSet, Analyze.pushSpans, Analyze.insertEvent, Analyze.eventLess,
    Analyze.processEventsUntil, Analyze.processLoop, Analyze.EventStart,
    Analyze.EventEnd, roundQ, maxInt64]

namespace Engine

/-! ### Worker / queue-depth normalization of the engine drivers -/

/-- Go's integer division (truncation toward zero). -/
def goDiv (a b : ℤ) : ℤ := Int.tdiv a b

/-- Go's integer remainder (sign of the dividend). -/
def goMod (a b : ℤ) : ℤ := Int.tmod a b

/-- The worker count and global queue depth a driver ends up with. -/
structure NormalizedSched where
  numWorkers : ℤ
  queueDepth : ℤ
deriving DecidableEq, Repr

/-- `pkg/engine/uring.go` `UringEngine.Run` lines 30-47 (the libaio driver's
sanitization is identical): default workers to 1 when nonpositive, default
the queue depth to the worker count when nonpositive, and cap workers at the
queue depth. -/
def uringNormalize (workers queueDepth : ℤ) : NormalizedSched :=
  let numWorkers := if workers ≤ 0 then 1 else workers
  let qd := if queueDepth ≤ 0 then numWorkers else queueDepth
  let numWorkers2 := if numWorkers > qd then qd else numWorkers
  ⟨numWorkers2, qd⟩

/-- `pkg/engine/uring.go` lines 49-66: the queue depth handed to worker `i`:
`qdPerWorker = QD / numWorkers` plus one extra slot for the first
`QD % numWorkers` workers. -/
def uringWorkerQD (workers queueDepth i : ℤ) : ℤ :=
  let n := uringNormalize workers queueDepth
  let qdPerWorker := goDiv n.queueDepth n.numWorkers
  let remainder := goMod n.queueDepth n.numWorkers
  if i < remainder then qdPerWorker + 1 else qdPerWorker

/-- `SyncEngine.Run` lines 42-72 (the sync driver): the only normalization is
`qd := params.QueueDepth; if qd <= 0 { qd = params.Workers }`; the driver then
spawns `params.Workers` workers unchanged, sharing one token bucket of
capacity `qd` — no worker cap and no per-worker partition. -/
def syncNormalize (workers queueDepth : ℤ) : NormalizedSched :=
  let qd := if queueDepth ≤ 0 then workers else queueDepth
  ⟨workers, qd⟩

end Engine

/-- C3 counterexample: the claim says EVERY engine driver caps workers at the
queue depth.  The sync driver does not: with `Workers = 4, QueueDepth = 2`
(block size positive) it spawns all 4 workers and only builds a token bucket
of capacity 2, whereas the claim requires the worker count to drop to 2. -/
theorem claim_C3_cex :
    (Engine.syncNormalize 4 2).numWorkers = 4 ∧
    (Engine.syncNormalize 4 2).queueDepth = 2 ∧
    ¬ (Engine.syncNormalize 4 2).numWorkers ≤ (Engine.syncNormalize 4 2).queueDepth := by
  refine ⟨rfl, rfl, by decide⟩

theorem sum_indicator_lt :
    ∀ (N K : ℕ), (Finset.range N).sum (fun i => if i < K then (1:ℤ) else 0)
      = min K N := by
  intro N K
  induction N with
  | zero => simp
  | succ n ih =>
    rw [Finset.sum_range_succ, ih]
    by_cases h : n < K
    · rw [if_pos h]
      omega
    · rw [if_neg h]
      omega

theorem partition_sum (n qd : ℤ) (hn : 1 ≤ n) (h0 : 0 ≤ qd) :
    (Finset.range n.toNat).sum
      (fun i => if (i : ℤ) < Engine.goMod qd n then Engine.goDiv qd n + 1
                else Engine.goDiv qd n) = qd := by
  have htd : Engine.goDiv qd n = qd / n := by
    rw [Engine.goDiv]
    exact Int.tdiv_eq_ediv h0 (by omega)
  have htm : Engine.goMod qd n = qd % n := by
    rw [Engine.goMod]
    exact Int.tmod_eq_emod h0 (by omega)
  have hmod0 : 0 ≤ qd % n := Int.emod_nonneg qd (by omega)
  have hmodlt : qd % n < n := Int.emod_lt_of_pos qd (by omega)
  have hstep : ∀ i : ℕ,
      (if (i : ℤ) < Engine.goMod qd n then Engine.goDiv qd n + 1 else Engine.goDiv qd n)
        = qd / n + (if i < (qd % n).toNat then (1:ℤ) else 0) := by
    intro i
    rw [htd, htm]
    have hiff : ((i : ℤ) < qd % n) ↔ (i < (qd % n).toNat) := by omega
    by_cases hc : (i : ℤ) < qd % n
    · rw [if_pos hc, if_pos (hiff.mp hc)]
    · rw [if_neg hc, if_neg (fun hx => hc (hiff.mpr hx))]
      ring
  rw [Finset.sum_congr rfl (fun i _ => hstep i)]
  rw [Finset.sum_add_distrib, Finset.sum_const, Finset.card_range, sum_indicator_lt]
  have hdm := Int.ediv_add_emod qd n
  have hcast : ((n.toNat : ℤ)) = n := by omega
  rw [nsmul_eq_mul, hcast]
  omega

/-- C3 (amended): only the ring/async drivers follow the full shared
skeleton.  For the uring (and identical libaio) driver with `Workers ≥ 1`:
a nonpositive `QueueDepth` becomes `Workers`; a positive `QueueDepth` is
kept, and `Workers` is reduced to `min Workers QueueDepth`; afterwards
`numWorkers ≤ queueDepth`, and the per-worker queue depths (one extra slot
for the first `QD mod numWorkers` workers) sum exactly to `queueDepth`.
The sync driver only defaults `QueueDepth` to `Workers` when nonpositive:
it spawns all `Workers` workers (no cap) and does not partition — the global
token bucket enforces the cap instead. -/
theorem claim_C3 (workers queueDepth : ℤ) (hw : 1 ≤ workers) :
    (queueDepth ≤ 0 →
      Engine.uringNormalize workers queueDepth = ⟨workers, workers⟩) ∧
    (0 < queueDepth →
      (Engine.uringNormalize workers queueDepth).queueDepth = queueDepth ∧
      (Engine.uringNormalize workers queueDepth).numWorkers = min workers queueDepth) ∧
    (Engine.uringNormalize workers queueDepth).numWorkers
      ≤ (Engine.uringNormalize workers queueDepth).queueDepth ∧
    (Finset.range (Engine.uringNormalize workers queueDepth).numWorkers.toNat).sum
        (fun i => Engine.uringWorkerQD workers queueDepth (i : ℤ))
      = (Engine.uringNormalize workers queueDepth).queueDepth ∧
    (Engine.syncNormalize workers queueDepth).numWorkers = workers ∧
    (Engine.syncNormalize workers queueDepth).queueDepth
      = (if queueDepth ≤ 0 then workers else queueDepth) := by
  have hnw : (Engine.uringNormalize workers queueDepth).numWorkers
      = if workers > (if queueDepth ≤ 0 then workers else queueDepth)
        then (if queueDepth ≤ 0 then workers else queueDepth) else workers := by
    rw [Engine.uringNormalize]
    rw [if_neg (by omega : ¬ workers ≤ 0)]
  have hqd : (Engine.uringNormalize workers queueDepth).queueDepth
      = if queueDepth ≤ 0 then workers else queueDepth := by
    rw [Engine.uringNormalize]
    rw [if_neg (by omega : ¬ workers ≤ 0)]
  have hn1 : 1 ≤ (Engine.uringNormalize workers queueDepth).numWorkers := by
    rw [hnw]; split_ifs <;> omega
  have hnle : (Engine.uringNormalize workers queueDepth).numWorkers
      ≤ (Engine.uringNormalize workers queueDepth).queueDepth := by
    rw [hnw, hqd]; split_ifs <;> omega
  refine ⟨?_, ?_, hnle, ?_, rfl, ?_⟩
  · intro hq
    rw [Engine.uringNormalize]
    rw [if_neg (by omega : ¬ workers ≤ 0), if_pos hq, if_neg (by omega)]
  · intro hq
    constructor
    · rw [hqd, if_neg (by omega)]
    · rw [hnw, if_neg (by omega : ¬ queueDepth ≤ 0)]
      split_ifs <;> omega
  · -- the partition sums to the queue depth
    have hrw : ∀ i : ℕ, Engine.uringWorkerQD workers queueDepth (i : ℤ)
        = (if (i : ℤ) < Engine.goMod (Engine.uringNormalize workers queueDepth).queueDepth
              (Engine.uringNormalize workers queueDepth).numWorkers
           then Engine.goDiv (Engine.uringNormalize workers queueDepth).queueDepth
              (Engine.uringNormalize workers queueDepth).numWorkers + 1
           else Engine.goDiv (Engine.uringNormalize workers queueDepth).queueDepth
              (Engine.uringNormalize workers queueDepth).numWorkers) := by
      intro i
      rw [Engine.uringWorkerQD]
    rw [Finset.sum_congr rfl (fun i _ => hrw i)]
    exact partition_sum _ _ hn1 (by omega)
  · rw [Engine.syncNormalize]

theorem claim_C3_witness :
    ((7:ℤ) ≤ 0 → Engine.uringNormalize 3 7 = ⟨3, 3⟩) ∧
    ((0:ℤ) < 7 →
      (Engine.uringNormalize 3 7).queueDepth = 7 ∧
      (Engine.uringNormalize 3 7).numWorkers = min 3 7) ∧
    (Engine.uringNormalize 3 7).numWorkers ≤ (Engine.uringNormalize 3 7).queueDepth ∧
    (Finset.range (Engine.uringNormalize 3 7).numWorkers.toNat).sum
        (fun i => Engine.uringWorkerQD 3 7 (i : ℤ))
      = (Engine.uringNormalize 3 7).queueDepth ∧
    (Engine.syncNormalize 3 7).numWorkers = 3 ∧
    (Engine.syncNormalize 3 7).queueDepth = (if (7:ℤ) ≤ 0 then 3 else 7) :=
  claim_C3 3 7 (by norm_num)

/-! ### Decimal rendering (`fmt.Sprintf` `%d`) and the evaluator's cache key -/

/-- The decimal digit characters of a natural number, most significant digit
first — Go's `%d` for a nonnegative value. -/
def natChars (n : ℕ) : List Char :=
  if n = 0 then ['0']
  else (Nat.digits 10 n).reverse.map (fun d => Char.ofNat (48 + d))

/-- Go's `%d` for an `int64`: a minus sign followed by the decimal digits of
the absolute value. -/
def intChars (v : ℤ) : List Char :=
  if v < 0 then '-' :: natChars v.natAbs else natChars v.toNat

theorem charOfNat_toNat (n : ℕ) (h : n.isValidChar) : (Char.ofNat n).toNat = n := by
  unfold Char.ofNat
  rw [dif_pos h]
  exact rfl

theorem digitChar_toNat (d : ℕ) (hd : d < 10) : (Char.ofNat (48 + d)).toNat = 48 + d :=
  charOfNat_toNat _ (Or.inl (by omega))

theorem natChars_toNat_bounds (n : ℕ) :
    ∀ c ∈ natChars n, 48 ≤ c.toNat ∧ c.toNat ≤ 57 := by
  intro c hc
  rw [natChars] at hc
  by_cases h0 : n = 0
  · rw [if_pos h0] at hc
    simp at hc
    subst hc
    constructor <;> decide
  · rw [if_neg h0] at hc
    rcases List.mem_map.mp hc with ⟨d, hd, rfl⟩
    have hd10 : d < 10 :=
      Nat.digits_lt_base (by norm_num) (List.mem_reverse.mp hd)
    rw [digitChar_toNat d hd10]
    omega

theorem natChars_ne_nil (n : ℕ) : natChars n ≠ [] := by
  rw [natChars]
  by_cases h0 : n = 0
  · rw [if_pos h0]; simp
  · rw [if_neg h0]
    simp [Nat.digits_ne_nil_iff_ne_zero, h0]

theorem natDecode_natChars (n : ℕ) :
    Nat.ofDigits 10 (((natChars n).map (fun c => c.toNat - 48)).reverse) = n := by
  rw [natChars]
  by_cases h0 : n = 0
  · rw [if_pos h0, h0]
    decide
  · rw [if_neg h0]
    rw [List.map_map]
    have hmap : (Nat.digits 10 n).reverse.map ((fun c : Char => c.toNat - 48)
        ∘ (fun d => Char.ofNat (48 + d))) = (Nat.digits 10 n).reverse := by
      refine List.map_congr_left ?_ |>.trans (List.map_id _)
      intro d hd
      have hd10 : d < 10 := Nat.digits_lt_base (by norm_num) (List.mem_reverse.mp hd)
      simp only [Function.comp_apply, id_eq]
      rw [digitChar_toNat d hd10]
      omega
    rw [hmap, List.reverse_reverse, Nat.ofDigits_digits]

theorem natChars_injective : Function.Injective natChars := by
  intro a b hab
  have ha := natDecode_natChars a
  have hb := natDecode_natChars b
  rw [hab] at ha
  rw [ha] at hb
  exact hb

theorem intChars_injective : Function.Injective intChars := by
  intro a b hab
  rw [intChars, intChars] at hab
  by_cases hA : a < 0
  · by_cases hB : b < 0
    · rw [if_pos hA, if_pos hB] at hab
      have := natChars_injective (List.cons_injective hab)
      omega
    · rw [if_pos hA, if_neg hB] at hab
      have hm : '-' ∈ natChars b.toNat := by
        rw [← hab]; simp
      have := (natChars_toNat_bounds b.toNat '-' hm).1
      simp at this
  · by_cases hB : b < 0
    · rw [if_neg hA, if_pos hB] at hab
      have hm : '-' ∈ natChars a.toNat := by
        rw [hab]; simp
      have := (natChars_toNat_bounds a.toNat '-' hm).1
      simp at this
    · rw [if_neg hA, if_neg hB] at hab
      have := natChars_injective hab
      omega

theorem intChars_toNat_le (v : ℤ) : ∀ c ∈ intChars v, c.toNat ≤ 57 := by
  intro c hc
  rw [intChars] at hc
  by_cases hv : v < 0
  · rw [if_pos hv] at hc
    rcases List.mem_cons.mp hc with h | h
    · subst h; decide
    · exact (natChars_toNat_bounds _ c h).2
  · rw [if_neg hv] at hc
    exact (natChars_toNat_bounds _ c hc).2

theorem colon_notin_intChars (v : ℤ) : ':' ∉ intChars v := by
  intro hc
  have := intChars_toNat_le v ':' hc
  simp at this

theorem append_sep_inj :
    ∀ (xs1 xs2 ys1 ys2 : List Char) (c : Char), c ∉ xs1 → c ∉ xs2 →
      xs1 ++ c :: ys1 = xs2 ++ c :: ys2 → xs1 = xs2 ∧ ys1 = ys2 := by
  intro xs1
  induction xs1 with
  | nil =>
    intro xs2 ys1 ys2 c _ hc2 heq
    cases xs2 with
    | nil => simpa using heq
    | cons y t =>
      simp only [List.nil_append, List.cons_append, List.cons.injEq] at heq
      exfalso
      apply hc2
      rw [← heq.1]
      exact List.mem_cons_self c t
  | cons x t ih =>
    intro xs2 ys1 ys2 c hc1 hc2 heq
    cases xs2 with
    | nil =>
      simp only [List.nil_append, List.cons_append, List.cons.injEq] at heq
      exfalso
      apply hc1
      rw [heq.1]
      exact List.mem_cons_self c t
    | cons y t2 =>
      simp only [List.cons_append, List.cons.injEq] at heq
      obtain ⟨rfl, heq2⟩ := heq
      have := ih t2 ys1 ys2 c (fun h => hc1 (List.mem_cons_of_mem _ h))
        (fun h => hc2 (List.mem_cons_of_mem _ h)) heq2
      exact ⟨by rw [this.1], this.2⟩

namespace Optimize

/-! ### State and the evaluator's cache key (`src/unnamed/part_011`) -/

/-- `State` (`part_011` line 172): a Go map from variable name to int,
modelled extensionally (`none` = key absent). -/
def State := String → Option ℤ

/-- The empty map `make(State)`. -/
def emptyState : State := fun _ => none

/-- Go's comma-ok read `v, ok := s[k]`. -/
def stateFind (s : State) (k : String) : Option ℤ := s k

/-- Go's plain map read `s[k]`: the zero value 0 when the key is absent. -/
def stateGetD (s : State) (k : String) : ℤ := (s k).getD 0

/-- Go's map assignment `s[k] = v`. -/
def stateSet (s : State) (k : String) (v : ℤ) : State :=
  fun k2 => if k2 = k then some v else s k2

/-- The well-known key `"block_size"`. -/
def blockSizeKey : String := "block_size"

/-- The well-known key `"queue_depth"`. -/
def queueDepthKey : String := "queue_depth"

/-- The well-known key `"workers"`. -/
def workersKey : String := "workers"

/-- The characters of `fmt.Sprintf("bs=%d:qd=%d:w=%d", bs, qd, w)`. -/
def hashStateChars (bs qd w : ℤ) : List Char :=
  ['b', 's', '='] ++ (intChars bs ++ (':' ::
    (['q', 'd', '='] ++ (intChars qd ++ (':' ::
      (['w', '='] ++ intChars w))))))

/-- `Evaluator.hashState` (`part_011` lines 270-278):
`fmt.Sprintf("bs=%d:qd=%d:w=%d", s["block_size"], s["queue_depth"],
s["workers"])` — only the three well-known keys are read (plain map reads,
so an absent key contributes its zero value 0); every other key of the state
is ignored, as the source's own NOTE admits. -/
def hashState (s : State) : String :=
  String.mk (hashStateChars (stateGetD s blockSizeKey)
    (stateGetD s queueDepthKey) (stateGetD s workersKey))

theorem hashStateChars_injective (bs qd w bs2 qd2 w2 : ℤ)
    (h : hashStateChars bs qd w = hashStateChars bs2 qd2 w2) :
    bs = bs2 ∧ qd = qd2 ∧ w = w2 := by
  rw [hashStateChars, hashStateChars] at h
  simp only [List.cons_append, List.nil_append, List.cons.injEq, true_and] at h
  obtain ⟨h1, h2⟩ := append_sep_inj _ _ _ _ ':'
    (colon_notin_intChars bs) (colon_notin_intChars bs2) h
  simp only [List.cons_append, List.nil_append, List.cons.injEq, true_and] at h2
  obtain ⟨h3, h4⟩ := append_sep_inj _ _ _ _ ':'
    (colon_notin_intChars qd) (colon_notin_intChars qd2) h2
  simp only [List.cons_append, List.nil_append, List.cons.injEq, true_and] at h4
  exact ⟨intChars_injective h1, intChars_injective h3, intChars_injective h4⟩

end Optimize

/-- C1 (amended): the cache key is NOT complete over all state keys — it
depends on exactly the three well-known map reads.  For any two states,
`hashState` agrees exactly when the (zero-defaulted) values of
`"block_size"`, `"queue_depth"` and `"workers"` agree; keys outside this set
are ignored entirely. -/
theorem claim_C1 (s t : Optimize.State) :
    Optimize.hashState s = Optimize.hashState t ↔
      (Optimize.stateGetD s Optimize.blockSizeKey
          = Optimize.stateGetD t Optimize.blockSizeKey ∧
        Optimize.stateGetD s Optimize.queueDepthKey
          = Optimize.stateGetD t Optimize.queueDepthKey ∧
        Optimize.stateGetD s Optimize.workersKey
          = Optimize.stateGetD t Optimize.workersKey) := by
  constructor
  · intro h
    rw [Optimize.hashState, Optimize.hashState] at h
    have hdata : Optimize.hashStateChars (Optimize.stateGetD s Optimize.blockSizeKey)
        (Optimize.stateGetD s Optimize.queueDepthKey)
        (Optimize.stateGetD s Optimize.workersKey)
        = Optimize.hashStateChars (Optimize.stateGetD t Optimize.blockSizeKey)
          (Optimize.stateGetD t Optimize.queueDepthKey)
          (Optimize.stateGetD t Optimize.workersKey) :=
      congrArg String.data h
    exact Optimize.hashStateChars_injective _ _ _ _ _ _ hdata
  · intro ⟨h1, h2, h3⟩
    rw [Optimize.hashState, Optimize.hashState, h1, h2, h3]

/-- C1 counterexample: the states `{block_size: 4096}` and
`{block_size: 4096, read_pct: 70}` differ in the key `"read_pct"`, yet their
cache keys are identical — `hashState` ignores every key outside
`{block_size, queue_depth, workers}`. -/
theorem claim_C1_cex :
    Optimize.hashState
        (Optimize.stateSet Optimize.emptyState Optimize.blockSizeKey 4096)
      = Optimize.hashState
          (Optimize.stateSet
            (Optimize.stateSet Optimize.emptyState Optimize.blockSizeKey 4096)
            (String.mk ['r', 'e', 'a', 'd', '_', 'p', 'c', 't']) 70) ∧
    Optimize.stateFind
        (Optimize.stateSet Optimize.emptyState Optimize.blockSizeKey 4096)
        (String.mk ['r', 'e', 'a', 'd', '_', 'p', 'c', 't'])
      ≠ Optimize.stateFind
          (Optimize.stateSet
            (Optimize.stateSet Optimize.emptyState Optimize.blockSizeKey 4096)
            (String.mk ['r', 'e', 'a', 'd', '_', 'p', 'c', 't']) 70)
          (String.mk ['r', 'e', 'a', 'd', '_', 'p', 'c', 't']) := by
  constructor
  · rw [claim_C1]
    refine ⟨?_, ?_, ?_⟩ <;>
      simp [Optimize.stateGetD, Optimize.stateSet, Optimize.emptyState,
        Optimize.blockSizeKey, Optimize.queueDepthKey, Optimize.workersKey]
  · intro h
    simp [Optimize.stateFind, Optimize.stateSet, Optimize.emptyState,
      Optimize.blockSizeKey] at h

/-! ### Models of the Go standard library used by the evaluator
(`time.ParseDuration`, `strconv.ParseFloat`, `time.Duration.String`).
These follow the documented stdlib behaviour on finite decimal inputs;
overflow saturation, hex floats, underscores and inf/nan are outside the
modelled input space (the model returns `none` for the unmodelled forms). -/

/-- Decimal digit test, `'0' <= c && c <= '9'`. -/
def isDigit (c : Char) : Bool := decide ('0' ≤ c) && decide (c ≤ '9')

/-- `leadingInt` of `time.ParseDuration`: consume leading digits into an
integer (Go's overflow check is elided). -/
def leadingInt : ℤ → List Char → (ℤ × List Char)
  | acc, [] => (acc, [])
  | acc, c :: rest =>
    if isDigit c then leadingInt (acc * 10 + ((c.toNat : ℤ) - 48)) rest
    else (acc, c :: rest)

/-- `leadingFraction` of `time.ParseDuration`: consume digits after the dot,
tracking the value and the scale `10^digits` (a `float64` in Go). -/
def leadingFraction : ℤ → ℚ → List Char → (ℤ × ℚ × List Char)
  | f, scale, [] => (f, scale, [])
  | f, scale, c :: rest =>
    if isDigit c then leadingFraction (f * 10 + ((c.toNat : ℤ) - 48)) (scale * 10) rest
    else (f, scale, c :: rest)

/-- The unit span of `time.ParseDuration`: everything up to the next digit
or dot. -/
def takeUnit : List Char → (List Char × List Char)
  | [] => ([], [])
  | c :: rest =>
    if isDigit c || c = '.' then ([], c :: rest)
    else
      let r := takeUnit rest
      (c :: r.1, r.2)

/-- `unitMap` of `time.ParseDuration`, in nanoseconds. -/
def unitLookup (u : List Char) : Option ℤ :=
  if u = ['n', 's'] then some 1
  else if u = ['u', 's'] then some 1000
  else if u = ['µ', 's'] then some 1000
  else if u = ['μ', 's'] then some 1000
  else if u = ['m', 's'] then some 1000000
  else if u = ['s'] then some 1000000000
  else if u = ['m'] then some 60000000000
  else if u = ['h'] then some 3600000000000
  else none

/-- The group loop of `time.ParseDuration`: each iteration parses
`[0-9]*(\.[0-9]*)?unit` and adds its nanosecond value; the `fuel` bounds the
iteration count (each group consumes at least its nonempty unit, so
`length + 1` fuel never runs out). -/
def parseDurLoop : ℕ → List Char → ℤ → Option ℤ
  | _, [], d => some d
  | 0, _ :: _, _ => none
  | fuel+1, c0 :: s0, d =>
    if ¬(isDigit c0 || c0 = '.') then none
    else
      let vr := leadingInt 0 (c0 :: s0)
      let v := vr.1
      let s1 := vr.2
      let pre := decide (s1.length ≠ (c0 :: s0).length)
      let fr := match s1 with
        | '.' :: s2 => leadingFraction 0 1 s2
        | _ => (0, 1, s1)
      let f := fr.1
      let scale := fr.2.1
      let s3 := fr.2.2
      let post := match s1 with
        | '.' :: s2 => decide (s3.length ≠ s2.length)
        | _ => false
      if ¬(pre || post) then none
      else
        let ur := takeUnit s3
        if ur.1 = [] then none
        else
          match unitLookup ur.1 with
          | none => none
          | some unit =>
            let v2 := v * unit
            let v3 := if 0 < f then v2 + ratTrunc ((f : ℚ) * ((unit : ℚ) / scale))
                      else v2
            parseDurLoop fuel ur.2 (d + v3)

/-- `time.ParseDuration`: optional sign, the special case `"0"`, then the
group loop; `none` is Go's error return. -/
def goParseDuration (str : String) : Option ℤ :=
  let s := str.data
  let sgn := match s with
    | c :: rest =>
      if c = '-' then (true, rest)
      else if c = '+' then (false, rest)
      else (false, s)
    | [] => (false, s)
  let neg := sgn.1
  let s1 := sgn.2
  if s1 = ['0'] then some 0
  else if s1 = [] then none
  else
    match parseDurLoop (s1.length + 1) s1 0 with
    | none => none
    | some d => some (if neg then -d else d)

/-- Consume leading decimal digits as a list of digit values. -/
def spanDigits : List Char → (List ℕ × List Char)
  | [] => ([], [])
  | c :: rest =>
    if isDigit c then
      let r := spanDigits rest
      ((c.toNat - 48) :: r.1, r.2)
    else ([], c :: rest)

/-- The value of a most-significant-first digit list. -/
def digitsVal (l : List ℕ) : ℤ := l.foldl (fun acc d => acc * 10 + (d : ℤ)) 0

/-- The tail of `strconv.ParseFloat` after the mantissa: an optional
`[eE][+-]?digits` exponent, then end of input. -/
def parseFloatFinish (sign : ℚ) (ip fp : List ℕ) (s : List Char) : Option ℚ :=
  let mant : ℚ := (digitsVal ip : ℚ) + (digitsVal fp : ℚ) / ((10 : ℚ) ^ fp.length)
  match s with
  | [] => some (sign * mant)
  | c :: rest =>
    if c = 'e' ∨ c = 'E' then
      let es := match rest with
        | c2 :: r3 =>
          if c2 = '-' then ((-1 : ℤ), r3)
          else if c2 = '+' then ((1 : ℤ), r3)
          else ((1 : ℤ), rest)
        | [] => ((1 : ℤ), rest)
      match spanDigits es.2 with
      | ([], _) => none
      | (ed, r4) =>
        if r4 = [] then some (sign * mant * (10 : ℚ) ^ (es.1 * digitsVal ed))
        else none
    else none

/-- `strconv.ParseFloat` on finite decimal literals
(`[+-]?digits[.digits][eE[+-]digits]`), with the exact decimal value (Go
rounds to the nearest `float64`; the claims only use exactly representable
inputs).  Hex floats, underscores and `inf`/`nan` are not modelled (`none`). -/
def goParseFloat (str : String) : Option ℚ :=
  let s := str.data
  let sg := match s with
    | c :: rest =>
      if c = '-' then ((-1 : ℚ), rest)
      else if c = '+' then ((1 : ℚ), rest)
      else ((1 : ℚ), s)
    | [] => ((1 : ℚ), s)
  let sign := sg.1
  let s1 := sg.2
  let ir := spanDigits s1
  match ir.2 with
  | '.' :: restf =>
    let fr := spanDigits restf
    if ir.1 = [] ∧ fr.1 = [] then none
    else parseFloatFinish sign ir.1 fr.1 fr.2
  | _ =>
    if ir.1 = [] then none
    else parseFloatFinish sign ir.1 [] ir.2

/-- Strip trailing `'0'` characters (the fraction printing of
`time.Duration.String` omits trailing zeros). -/
def stripTrailZeros (l : List Char) : List Char :=
  (l.reverse.dropWhile (fun c => c = '0')).reverse

/-- Left-pad a digit string with `'0'` to a given width. -/
def padLeftZeros (l : List Char) (n : ℕ) : List Char :=
  List.replicate (n - l.length) '0' ++ l

/-- The fraction part of `time.Duration.String`'s `fmtFrac`: the `'.'` plus
the `prec` fractional digits of `u` with trailing zeros removed (empty if the
fraction is zero), together with the remaining integer part `u / 10^prec`. -/
def fmtFracChars (u : ℕ) (prec : ℕ) : (List Char × ℕ) :=
  let frac := u % 10 ^ prec
  let rest := u / 10 ^ prec
  if frac = 0 then ([], rest)
  else ('.' :: stripTrailZeros (padLeftZeros (natChars frac) prec), rest)

/-- `time.Duration.String`: `"0s"`, `ns`/`µs`/`ms` with fractions below one
second, and `h`/`m`/`s` decomposition above. -/
def goDurationString (d : ℤ) : String :=
  let u := d.natAbs
  let core : List Char :=
    if u < 1000000000 then
      if u = 0 then ['0', 's']
      else if u < 1000 then natChars u ++ ['n', 's']
      else if u < 1000000 then
        let f := fmtFracChars u 3
        natChars f.2 ++ f.1 ++ ['µ', 's']
      else
        let f := fmtFracChars u 6
        natChars f.2 ++ f.1 ++ ['m', 's']
    else
      let f := fmtFracChars u 9
      let secs := f.2
      let sPart := natChars (secs % 60) ++ f.1 ++ ['s']
      let mins := secs / 60
      if mins = 0 then sPart
      else
        let mPart := natChars (mins % 60) ++ ['m'] ++ sPart
        let hrs := mins / 60
        if hrs = 0 then mPart else natChars hrs ++ ['h'] ++ mPart
  String.mk (if d < 0 then '-' :: core else core)

namespace Optimize

/-! ### The evaluator (`src/unnamed/part_011`, second document): config
types, score calculation, caching merge, and `Evaluate`. -/

/-- `config.Objective` (config.go lines 46-50).  The Go field `Type`
("maximize" / "minimize" / "constraint") is spelled `Otype` because `Type`
is reserved in Lean. -/
structure Objective where
  Otype : String
  Metric : String
  Limit : String
deriving Repr, DecidableEq

/-- `config.Variable` (config.go lines 38-43): a parameter to optimize,
either an explicit value list or an inclusive `[min, max]` range with an
optional step. -/
structure Variable where
  Name : String
  Values : List ℤ
  Range : List ℤ
  Step : ℤ
deriving Repr, DecidableEq

/-- The fields of `config.Settings` (config.go lines 19-35) that the
evaluator copies into the engine parameters; durations in nanoseconds,
floats as exact rationals. -/
structure Settings where
  EngineType : String
  Direct : Bool
  ReadPct : ℤ
  Rand : Bool
  MinRuntime : ℤ
  MaxRuntime : ℤ
  ErrorTarget : ℚ
  InitialTemp : ℚ
  CoolingRate : ℚ
  MinTemp : ℚ
  StepsPerTemp : ℤ
  RestartInterval : ℤ
deriving Repr, DecidableEq

/-- `config.Config` (config.go lines 11-17).  The Go field `Settings` is
spelled lowercase to avoid shadowing the `Settings` type. -/
structure Config where
  Target : String
  Search : List Variable
  Objectives : List Objective
  Optimizer : String
  settings : Settings
deriving Repr, DecidableEq

/-- `engine.Result` (types.go lines 8-20); durations in nanoseconds,
floats as exact rationals. -/
structure Result where
  IOPS : ℚ
  Throughput : ℚ
  MeanLatency : ℤ
  P50Latency : ℤ
  P95Latency : ℤ
  P99Latency : ℤ
  P999Latency : ℤ
  TotalIOs : ℤ
  Duration : ℤ
  MetricConfidence : ℚ
  TerminationReason : String
deriving Repr, DecidableEq

/-- `engine.Params` (types.go lines 28-44), without the progress callback. -/
structure Params where
  EngineType : String
  Path : String
  BlockSize : ℤ
  Direct : Bool
  ReadPct : ℤ
  Rand : Bool
  Workers : ℤ
  QueueDepth : ℤ
  MinRuntime : ℤ
  MaxRuntime : ℤ
  ErrorTarget : ℚ
deriving Repr, DecidableEq

/-- `HistoryEntry` (part_011 lines 164-169). -/
structure HistoryEntry where
  state : State
  result : Result
  score : ℚ
  reason : String

/-- `Evaluator` (part_011 lines 156-162); the engine itself is passed to
`Evaluate` as a function (Go's `eng engine.Engine` interface field), and the
cache map is modelled as an association list. -/
structure Evaluator where
  cfg : Config
  initialScore : ℚ
  History : List HistoryEntry
  Cache : List (String × Result)

/-- `NewEvaluator` (part_011 lines 174-181). -/
def NewEvaluator (cfg : Config) : Evaluator :=
  { cfg := cfg
    initialScore := 0
    History := []
    Cache := [] }

/-- Go map lookup `v, found := m[key]` on the association-list model. -/
def cacheFind : List (String × Result) → String → Option Result
  | [], _ => none
  | (k, v) :: rest, key => if k = key then some v else cacheFind rest key

/-- Go map assignment `m[key] = v` on the association-list model. -/
def cacheSet : List (String × Result) → String → Result → List (String × Result)
  | [], key, v => [(key, v)]
  | (k, w) :: rest, key, v =>
    if k = key then (key, v) :: rest else (k, w) :: cacheSet rest key v

/-- The objective type `"constraint"`. -/
def strConstraint : String := "constraint"

/-- The objective type `"maximize"`. -/
def strMaximize : String := "maximize"

/-- The objective type `"minimize"`. -/
def strMinimize : String := "minimize"

/-- The metric `"iops"`. -/
def strIOPS : String := "iops"

/-- The metric `"throughput"`. -/
def strThroughput : String := "throughput"

/-- The metric `"p99_latency"`. -/
def strP99 : String := "p99_latency"

/-- The metric `"p50_latency"`. -/
def strP50 : String := "p50_latency"

/-- The metric `"p95_latency"`. -/
def strP95 : String := "p95_latency"

/-- The failure-reason prefix `"Constraint Failed: "`. -/
def strCF : String := "Constraint Failed: "

/-- `parseLimit` (part_011 lines 352-358): parse the limit as a duration
string; failing that as a float, where Go's `time.Duration(f)` conversion
truncates the float to an integer NUMBER OF NANOSECONDS; failing both, 0. -/
def parseLimit (s : String) : ℤ :=
  match goParseDuration s with
  | some d => d
  | none =>
    match goParseFloat s with
    | some f => ratTrunc f
    | none => 0

/-- `time.Duration.Seconds()`: the duration as an exact rational number of
seconds. -/
def durSeconds (d : ℤ) : ℚ := (d : ℚ) / 1000000000

/-- The failure reason `fmt.Sprintf("Constraint Failed: %s (%v > %s)",
metric, actualDur, limit)` of `calculateScore` (part_011 line 305); `%v` on
a `time.Duration` prints `Duration.String()`. -/
def failReason (metric : String) (actual : ℤ) (limit : String) : String :=
  strCF ++ (metric ++ (" (" ++ (goDurationString actual ++ (" > " ++ (limit ++ ")")))))

/-- One step of the constraint pass of `calculateScore` (part_011 lines
288-307): a constraint objective fails when its measured latency metric
exceeds the parsed limit; metrics other than the three latency cases leave
`passed` true (and a non-constraint objective is skipped). -/
def constraintFailure (res : Result) (obj : Objective) : Option String :=
  if obj.Otype = strConstraint then
    if obj.Metric = strP99 then
      if parseLimit obj.Limit < res.P99Latency then
        some (failReason obj.Metric res.P99Latency obj.Limit)
      else none
    else if obj.Metric = strP50 then
      if parseLimit obj.Limit < res.P50Latency then
        some (failReason obj.Metric res.P50Latency obj.Limit)
      else none
    else if obj.Metric = strP95 then
      if parseLimit obj.Limit < res.P95Latency then
        some (failReason obj.Metric res.P95Latency obj.Limit)
      else none
    else none
  else none

/-- The constraint pass of `calculateScore`: the reason of the first failing
constraint objective, in order. -/
def firstFailure : List Objective → Result → Option String
  | [], _ => none
  | obj :: rest, res =>
    match constraintFailure res obj with
    | some r => some r
    | none => firstFailure rest res

/-- The per-objective value of the scoring pass of `calculateScore`
(part_011 lines 312-318): iops, throughput in MiB/s, or negated latency in
milliseconds; anything else contributes 0. -/
def objectiveValue (res : Result) (obj : Objective) : ℚ :=
  if obj.Metric = strIOPS then res.IOPS
  else if obj.Metric = strThroughput then res.Throughput / 1024 / 1024
  else if obj.Metric = strP99 then -(durSeconds res.P99Latency * 1000)
  else if obj.Metric = strP50 then -(durSeconds res.P50Latency * 1000)
  else 0

/-- The scoring pass of `calculateScore` (part_011 lines 310-320): add the
value of each maximize objective, subtract each minimize objective. -/
def scoreSum (objectives : List Objective) (res : Result) : ℚ :=
  objectives.foldl (fun acc obj =>
    let val := objectiveValue res obj
    if obj.Otype = strMaximize then acc + val
    else if obj.Otype = strMinimize then acc - val
    else acc) 0

/-- `Evaluator.calculateScore` (part_011 lines 287-322): any failing
constraint short-circuits to `(0, reason)`; otherwise the summed objective
score with an empty reason. -/
def calculateScore (cfg : Config) (res : Result) : ℚ × String :=
  match firstFailure cfg.Objectives res with
  | some reason => (0, reason)
  | none => (scoreSum cfg.Objectives res, "")

/-- `Evaluator.scaleScore` (part_011 lines 280-285): any non-empty failure
reason scores a flat -1000; otherwise the raw score scaled by
`initialScore`.  (Inside `Evaluate` the scaling branch only runs with
`initialScore >= 1`, so the rational division is never division by zero.) -/
def scaleScore (e : Evaluator) (raw : ℚ) (reason : String) : ℚ :=
  if reason ≠ "" then -1000
  else raw / e.initialScore * 1000

/-- The cache-merge of `Evaluate` (part_011 lines 214-243): durations and IO
counts add, P50/P99 merge by IO-weighted average (truncated back to integer
nanoseconds), IOPS and throughput are recomputed, confidence is averaged,
the latest termination reason wins, and every other field is left at its
zero value. -/
def mergeCached (p : Params) (cached res : Result) : Result :=
  let totalDuration := cached.Duration + res.Duration
  let totalIOs := cached.TotalIOs + res.TotalIOs
  let wOld : ℚ := (cached.TotalIOs : ℚ)
  let wNew : ℚ := (res.TotalIOs : ℚ)
  let totalW := wOld + wNew
  let mergedP50 := ratTrunc (((cached.P50Latency : ℚ) * wOld + (res.P50Latency : ℚ) * wNew) / totalW)
  let mergedP99 := ratTrunc (((cached.P99Latency : ℚ) * wOld + (res.P99Latency : ℚ) * wNew) / totalW)
  { IOPS := (totalIOs : ℚ) / durSeconds totalDuration
    Throughput := ((totalIOs * p.BlockSize : ℤ) : ℚ) / durSeconds totalDuration
    MeanLatency := 0
    P50Latency := mergedP50
    P95Latency := 0
    P99Latency := mergedP99
    P999Latency := 0
    TotalIOs := totalIOs
    Duration := totalDuration
    MetricConfidence := (cached.MetricConfidence + res.MetricConfidence) / 2
    TerminationReason := res.TerminationReason }

/-- The parameter block of `Evaluate` (part_011 lines 188-206): settings
copied from the config, defaults 4096/1/1 for block size, workers and queue
depth, each overridden by a comma-ok read of the state. -/
def buildParams (cfg : Config) (s : State) : Params :=
  let base : Params :=
    { EngineType := cfg.settings.EngineType
      Path := cfg.Target
      BlockSize := 4096
      Direct := cfg.settings.Direct
      ReadPct := cfg.settings.ReadPct
      Rand := cfg.settings.Rand
      Workers := 1
      QueueDepth := 1
      MinRuntime := cfg.settings.MinRuntime
      MaxRuntime := cfg.settings.MaxRuntime
      ErrorTarget := cfg.settings.ErrorTarget }
  let base1 := match stateFind s blockSizeKey with
    | some v => { base with BlockSize := v }
    | none => base
  let base2 := match stateFind s workersKey with
    | some v => { base1 with Workers := v }
    | none => base1
  match stateFind s queueDepthKey with
  | some v => { base2 with QueueDepth := v }
  | none => base2

/-- The body of `Evaluate` after a successful engine run (part_011 lines
213-267): merge with any cached result under the state's hash key, store
back into the cache, compute the raw score and reason, update
`initialScore` on the first successful (unconstrained) evaluation, scale
the score, and append the history entry.  Returns the updated evaluator and
the returned `(result, score, reason)` triple. -/
def evaluateOk (e : Evaluator) (s : State) (p : Params) (res0 : Result) :
    Evaluator × Result × ℚ × String :=
  let key := hashState s
  let res := match cacheFind e.Cache key with
    | some cached => mergeCached p cached res0
    | none => res0
  let cache2 := cacheSet e.Cache key res
  let rs := calculateScore e.cfg res
  let raw := rs.1
  let reason := rs.2
  let init2 :=
    if e.initialScore ≤ 1 ∧ reason = "" then
      if |raw| < 1 then 1 else |raw|
    else e.initialScore
  let e2 : Evaluator :=
    { cfg := e.cfg
      initialScore := init2
      History := e.History
      Cache := cache2 }
  let score := scaleScore e2 raw reason
  let e3 : Evaluator :=
    { cfg := e2.cfg
      initialScore := e2.initialScore
      History := e2.History ++ [⟨s, res, score, reason⟩]
      Cache := e2.Cache }
  (e3, res, score, reason)

/-- `Evaluator.Evaluate` (part_011 lines 187-268); the engine interface is
a function returning `Except` (Go's `(*Result, error)`), and an engine
error propagates unchanged with no evaluator update. -/
def Evaluate (eng : Params → Except String Result) (e : Evaluator) (s : State) :
    Except String (Evaluator × Result × ℚ × String) :=
  match eng (buildParams e.cfg s) with
  | Except.error err => Except.error err
  | Except.ok res0 => Except.ok (evaluateOk e s (buildParams e.cfg s) res0)

end Optimize

namespace Optimize

/-- A constraint violation in the sense of `calculateScore`'s switch: the
objective's metric is one of the three handled latency metrics and the
measured latency (nanoseconds) exceeds the parsed limit. -/
def violatesConstraint (res : Result) (obj : Objective) : Prop :=
  (obj.Metric = strP99 ∧ parseLimit obj.Limit < res.P99Latency) ∨
  (obj.Metric = strP50 ∧ parseLimit obj.Limit < res.P50Latency) ∨
  (obj.Metric = strP95 ∧ parseLimit obj.Limit < res.P95Latency)

theorem constraintFailure_isSome (res : Result) (obj : Objective)
    (hcon : obj.Otype = strConstraint) (hviol : violatesConstraint res obj) :
    constraintFailure res obj ≠ none := by
  unfold constraintFailure
  rw [if_pos hcon]
  rcases hviol with ⟨hm, hlt⟩ | ⟨hm, hlt⟩ | ⟨hm, hlt⟩ <;> rw [hm]
  · rw [if_pos rfl, if_pos hlt]
    simp
  · rw [if_neg (by decide), if_pos rfl, if_pos hlt]
    simp
  · rw [if_neg (by decide), if_neg (by decide), if_pos rfl, if_pos hlt]
    simp

theorem firstFailure_isSome (res : Result) (obj : Objective) (objs : List Objective)
    (h : obj ∈ objs) (hne : constraintFailure res obj ≠ none) :
    firstFailure objs res ≠ none := by
  induction objs with
  | nil => exact absurd h (List.not_mem_nil _)
  | cons o rest ih =>
    simp only [firstFailure]
    cases hcf : constraintFailure res o with
    | some r => simp
    | none =>
      simp only
      rcases List.mem_cons.mp h with rfl | hmem
      · exact absurd hcf hne
      · exact ih hmem

theorem constraintFailure_form (res : Result) (obj : Objective) (r : String)
    (h : constraintFailure res obj = some r) : ∃ t, r = strCF ++ t := by
  unfold constraintFailure at h
  repeat' split at h
  all_goals
    first
      | exact Option.noConfusion h
      | (obtain rfl := (Option.some.inj h).symm
         exact ⟨_, rfl⟩)

theorem firstFailure_form (res : Result) (objs : List Objective) (r : String)
    (h : firstFailure objs res = some r) : ∃ t, r = strCF ++ t := by
  induction objs with
  | nil => exact Option.noConfusion h
  | cons o rest ih =>
    simp only [firstFailure] at h
    cases hcf : constraintFailure res o with
    | some r2 =>
      rw [hcf] at h
      simp only [Option.some.injEq] at h
      exact h ▸ constraintFailure_form res o r2 hcf
    | none =>
      rw [hcf] at h
      simp only at h
      exact ih h

theorem strCF_append_ne_empty (t : String) : strCF ++ t ≠ "" := by
  intro h
  have hlen := congrArg String.length h
  rw [String.length_append] at hlen
  have h19 : strCF.length = 19 := by decide
  rw [h19] at hlen
  simp at hlen

/-- The reason returned by `evaluateOk` is the reason computed by
`calculateScore` on the (possibly cache-merged) result it returns. -/
theorem evaluateOk_reason (e : Evaluator) (s : State) (p : Params) (res0 : Result) :
    (evaluateOk e s p res0).2.2.2 =
      (calculateScore e.cfg ((evaluateOk e s p res0).2.1)).2 := rfl

/-- The score returned by `evaluateOk` is `scaleScore` of the raw score and
reason computed on the returned result, under the post-update evaluator. -/
theorem evaluateOk_score (e : Evaluator) (s : State) (p : Params) (res0 : Result) :
    (evaluateOk e s p res0).2.2.1 =
      scaleScore ((evaluateOk e s p res0).1)
        ((calculateScore e.cfg ((evaluateOk e s p res0).2.1)).1)
        ((calculateScore e.cfg ((evaluateOk e s p res0).2.1)).2) := rfl

end Optimize

/-- The limit string `"2"`: not a valid duration (missing unit), a valid
float. -/
def limitTwo : String := String.mk ['2']

/-- A result whose P99 latency is one millisecond (10^6 ns). -/
def resMilli : Optimize.Result :=
  { IOPS := 0
    Throughput := 0
    MeanLatency := 0
    P50Latency := 0
    P95Latency := 0
    P99Latency := 1000000
    P999Latency := 0
    TotalIOs := 0
    Duration := 0
    MetricConfidence := 0
    TerminationReason := "" }

theorem goParseFloat_limitTwo : goParseFloat limitTwo = some 2 := by
  have hstep : goParseFloat limitTwo = parseFloatFinish 1 [2] [] [] := rfl
  have hstep2 : parseFloatFinish 1 [2] [] [] =
      some ((1 : ℚ) * (((2 : ℤ) : ℚ) + ((0 : ℤ) : ℚ) / (10 : ℚ) ^ (0 : ℕ))) := rfl
  rw [hstep, hstep2]
  norm_num

/-- C5 (amended): a constraint limit is parsed first as a duration string;
when that fails it falls back to parsing the string as a float and
interpreting the float as NANOSECONDS (Go's `time.Duration(f)` conversion
truncates the float to an int64 nanosecond count) — not as seconds — and the
constraint comparison tests the measured latency (in nanoseconds) against
that value. -/
theorem claim_C5 (s : String) (f : ℚ) (res : Optimize.Result)
    (hdur : goParseDuration s = none) (hf : goParseFloat s = some f) :
    Optimize.parseLimit s = ratTrunc f ∧
    (Optimize.constraintFailure res
        ⟨Optimize.strConstraint, Optimize.strP99, s⟩ ≠ none ↔
      ratTrunc f < res.P99Latency) := by
  have hp : Optimize.parseLimit s = ratTrunc f := by
    simp only [Optimize.parseLimit, hdur, hf]
  refine ⟨hp, ?_⟩
  have hred : Optimize.constraintFailure res
      ⟨Optimize.strConstraint, Optimize.strP99, s⟩ =
      if Optimize.parseLimit s < res.P99Latency then
        some (Optimize.failReason Optimize.strP99 res.P99Latency s)
      else none := rfl
  rw [hred, hp]
  by_cases hlt : ratTrunc f < res.P99Latency
  · rw [if_pos hlt]
    simp [hlt]
  · rw [if_neg hlt]
    simp [hlt]

/-- C5 counterexample: the frozen claim reads the float fallback as seconds.
The limit string `"2"` is rejected by `time.ParseDuration` and parsed as the
float `2`, but `parseLimit` returns 2 nanoseconds — not 2 seconds
(2000000000 ns) — so a measured P99 latency of one millisecond, far below
two seconds, fails the constraint. -/
theorem claim_C5_cex :
    goParseDuration limitTwo = none ∧
    goParseFloat limitTwo = some 2 ∧
    Optimize.parseLimit limitTwo = 2 ∧
    Optimize.parseLimit limitTwo ≠ 2000000000 ∧
    resMilli.P99Latency < 2000000000 ∧
    Optimize.constraintFailure resMilli
      ⟨Optimize.strConstraint, Optimize.strP99, limitTwo⟩ ≠ none := by
  have h1 : goParseDuration limitTwo = none := by decide
  have h2 : goParseFloat limitTwo = some 2 := goParseFloat_limitTwo
  have hpl : Optimize.parseLimit limitTwo = 2 := by
    simp only [Optimize.parseLimit, h1, h2]
    norm_num [ratTrunc]
  have hred : Optimize.constraintFailure resMilli
      ⟨Optimize.strConstraint, Optimize.strP99, limitTwo⟩ =
      if Optimize.parseLimit limitTwo < resMilli.P99Latency then
        some (Optimize.failReason Optimize.strP99 resMilli.P99Latency limitTwo)
      else none := rfl
  refine ⟨h1, h2, hpl, by rw [hpl]; decide, by decide, ?_⟩
  rw [hred, hpl]
  have hlt : (2 : ℤ) < resMilli.P99Latency := by decide
  rw [if_pos hlt]
  simp

/-- C5 witness: the amended theorem applied at limit `"2"` and a
one-millisecond measured P99. -/
theorem claim_C5_witness :
    Optimize.parseLimit limitTwo = ratTrunc 2 ∧
    (Optimize.constraintFailure resMilli
        ⟨Optimize.strConstraint, Optimize.strP99, limitTwo⟩ ≠ none ↔
      ratTrunc (2 : ℚ) < resMilli.P99Latency) :=
  claim_C5 limitTwo 2 resMilli (by decide) goParseFloat_limitTwo

/-- C6: whenever the (possibly cache-merged) result of a successful
evaluation violates some constraint objective of the configuration — its
measured latency metric exceeds the parsed limit — `Evaluate` returns the
flat score -1000, a reason beginning `"Constraint Failed: "`, and the raw
score is the constraint short-circuit 0 (no maximize/minimize objective
contributes).  This holds for every state and every evaluator, in
particular for every value of `initialScore`. -/
theorem claim_C6 (eng : Optimize.Params → Except String Optimize.Result)
    (e : Optimize.Evaluator) (s : Optimize.State) (e2 : Optimize.Evaluator)
    (res : Optimize.Result) (score : ℚ) (reason : String)
    (obj : Optimize.Objective)
    (hrun : Optimize.Evaluate eng e s = Except.ok (e2, res, score, reason))
    (hmem : obj ∈ e.cfg.Objectives)
    (hcon : obj.Otype = Optimize.strConstraint)
    (hviol : Optimize.violatesConstraint res obj) :
    score = -1000 ∧ (∃ t, reason = Optimize.strCF ++ t) ∧
      (Optimize.calculateScore e.cfg res).1 = 0 := by
  simp only [Optimize.Evaluate] at hrun
  split at hrun
  · exact Except.noConfusion hrun
  · rename_i res0 heng
    have h4 := Except.ok.inj hrun
    have hres : (Optimize.evaluateOk e s (Optimize.buildParams e.cfg s) res0).2.1 = res :=
      congrArg (fun x => x.2.1) h4
    have hsc : (Optimize.evaluateOk e s (Optimize.buildParams e.cfg s) res0).2.2.1 = score :=
      congrArg (fun x => x.2.2.1) h4
    have hrs : (Optimize.evaluateOk e s (Optimize.buildParams e.cfg s) res0).2.2.2 = reason :=
      congrArg (fun x => x.2.2.2) h4
    have hne := Optimize.constraintFailure_isSome res obj hcon hviol
    have hff := Optimize.firstFailure_isSome res obj e.cfg.Objectives hmem hne
    obtain ⟨r, hr⟩ := Option.ne_none_iff_exists'.mp hff
    have hcs : Optimize.calculateScore e.cfg res = (0, r) := by
      simp only [Optimize.calculateScore, hr]
    obtain ⟨t, ht⟩ := Optimize.firstFailure_form res e.cfg.Objectives r hr
    have hreason : reason = r := by
      rw [← hrs, Optimize.evaluateOk_reason, hres, hcs]
    have hrne : reason ≠ "" := by
      rw [hreason, ht]
      exact Optimize.strCF_append_ne_empty t
    refine ⟨?_, ⟨t, hreason.trans ht⟩, by rw [hcs]⟩
    rw [← hsc, Optimize.evaluateOk_score, hres, hcs]
    rw [Optimize.scaleScore]
    rw [if_pos ?hcond]
    case hcond =>
      show r ≠ ""
      rw [← hreason]
      exact hrne

/-- The limit string `"10ms"` of the S5 scenario. -/
def limitTenMs : String := "10ms"

/-- The S5 mock engine result: 2000 IOPS, P99 latency 20 ms. -/
def mockResC6 : Optimize.Result :=
  { IOPS := 2000
    Throughput := 0
    MeanLatency := 0
    P50Latency := 0
    P95Latency := 0
    P99Latency := 20000000
    P999Latency := 0
    TotalIOs := 1000
    Duration := 1000000000
    MetricConfidence := 0
    TerminationReason := "Timeout" }

/-- The constraint objective of the S5 scenario: p99_latency <= 10ms. -/
def objC6 : Optimize.Objective :=
  ⟨Optimize.strConstraint, Optimize.strP99, limitTenMs⟩

/-- The S5 configuration: objectives `[maximize iops, constraint
p99_latency limit=10ms]`. -/
def cfgC6 : Optimize.Config :=
  { Target := "/dev/test"
    Search := []
    Objectives := [⟨Optimize.strMaximize, Optimize.strIOPS, ""⟩, objC6]
    Optimizer := ""
    settings := { EngineType := "sync"
                  Direct := false
                  ReadPct := 100
                  Rand := false
                  MinRuntime := 1000000000
                  MaxRuntime := 10000000000
                  ErrorTarget := 0
                  InitialTemp := 1000
                  CoolingRate := 9 / 10
                  MinTemp := 1 / 100
                  StepsPerTemp := 5
                  RestartInterval := 0 } }

/-- The S5 mock engine: always returns `mockResC6`. -/
def mockEngC6 : Optimize.Params → Except String Optimize.Result :=
  fun _ => Except.ok mockResC6

/-- A fresh evaluator over the S5 configuration. -/
def evC6 : Optimize.Evaluator := Optimize.NewEvaluator cfgC6

/-- The parameters the evaluator builds for the empty state. -/
def pC6 : Optimize.Params := Optimize.buildParams cfgC6 Optimize.emptyState

/-- The full output of the S5 evaluation. -/
def outC6 : Optimize.Evaluator × Optimize.Result × ℚ × String :=
  Optimize.evaluateOk evC6 Optimize.emptyState pC6 mockResC6

/-- C6 witness: the S5 scenario — a fresh evaluator, objectives
`[maximize iops, constraint p99_latency 10ms]` and a mock engine measuring
P99 = 20 ms — scores -1000 with a `"Constraint Failed: "` reason. -/
theorem claim_C6_witness :
    objC6 ∈ evC6.cfg.Objectives ∧
    (outC6.2.2.1 = -1000 ∧ (∃ t, outC6.2.2.2 = Optimize.strCF ++ t) ∧
      (Optimize.calculateScore evC6.cfg outC6.2.1).1 = 0) :=
  ⟨List.mem_cons_of_mem _ (List.mem_cons_self _ _),
    claim_C6 mockEngC6 evC6 Optimize.emptyState outC6.1 outC6.2.1 outC6.2.2.1
      outC6.2.2.2 objC6 rfl (List.mem_cons_of_mem _ (List.mem_cons_self _ _))
      rfl (Or.inl ⟨rfl, by decide⟩)⟩

namespace Optimize

/-! ### The two optimizers (`src/pkg/optimize/coordinate.go`), instrumented.
The evaluator is abstracted as an oracle `ev : State → Result × ℚ`
returning the `(result, score)` of a successful `Evaluate` call (an engine
error aborts a Go run early, so an aborted run evaluates a prefix of the
states modelled here).  Each function additionally returns the list of
every state it passes to the evaluator.  Unbounded loops (the coordinate
outer loop, the step-halving loop, the cooling loop) take explicit fuel. -/

/-- The zero value of `engine.Result` (`var bestRes engine.Result`). -/
def zeroResult : Result :=
  { IOPS := 0
    Throughput := 0
    MeanLatency := 0
    P50Latency := 0
    P95Latency := 0
    P99Latency := 0
    P999Latency := 0
    TotalIOs := 0
    Duration := 0
    MetricConfidence := 0
    TerminationReason := "" }

/-- `v.Range[0]`.  (Go panics when `Range` is shorter; the well-formedness
hypotheses of the theorems below require a two-element range for every
range variable, making the default irrelevant.) -/
def rangeLo (v : Variable) : ℤ := v.Range.getD 0 0

/-- `v.Range[1]`. -/
def rangeHi (v : Variable) : ℤ := v.Range.getD 1 0

/-- The initial value `CoordinateOptimizer.Optimize` picks for a variable
(coordinate.go lines 26-30): the middle enumerated value, or the truncated
midpoint of the range (Go `/` on `int` truncates toward zero). -/
def midVal (v : Variable) : ℤ :=
  if 0 < v.Values.length then v.Values.getD (v.Values.length / 2) 0
  else Int.tdiv (rangeLo v + rangeHi v) 2

/-- The initial state of `CoordinateOptimizer.Optimize` (lines 24-31). -/
def initialState (search : List Variable) : State :=
  search.foldl (fun s v => stateSet s v.Name (midVal v)) emptyState

/-- The loop of `optimizeList` (lines 85-96): try every enumerated value in
order on the shared temp state; keep the best value by score, with the
zero-result escape `bestRes.IOPS == 0` forcing the first update. -/
def optListLoop (ev : State → Result × ℚ) (name : String) :
    List ℤ → State → ℤ → Result → ℚ → ℤ × Result × ℚ × List State
  | [], _, bestVal, bestRes, bestScore => (bestVal, bestRes, bestScore, [])
  | val :: rest, temp, bestVal, bestRes, bestScore =>
    let temp2 := stateSet temp name val
    let rs := ev temp2
    let next :=
      if bestScore < rs.2 ∨ bestRes.IOPS = 0 then
        optListLoop ev name rest temp2 val rs.1 rs.2
      else
        optListLoop ev name rest temp2 bestVal bestRes bestScore
    (next.1, next.2.1, next.2.2.1, temp2 :: next.2.2.2)

/-- `CoordinateOptimizer.optimizeList` (lines 77-98). -/
def optimizeList (ev : State → Result × ℚ) (s : State) (v : Variable) :
    ℤ × Result × ℚ × List State :=
  optListLoop ev v.Name v.Values s (stateGetD s v.Name) zeroResult 0

/-- One iteration of the step loop of `optimizeRange` (lines 115-141): try
`bestVal + step` if it stays at most `Range[1]`, and if that did not
improve, try `bestVal - step` if it stays at least `Range[0]`; both trials
reuse the shared temp state.  Returns
`(improved, bestVal, bestRes, bestScore, temp, evaluated)`. -/
def optRangeStep (ev : State → Result × ℚ) (name : String) (lo hi : ℤ)
    (step : ℤ) (temp0 : State) (bestVal0 : ℤ) (bestRes0 : Result)
    (bestScore0 : ℚ) : Bool × ℤ × Result × ℚ × State × List State :=
  let up :=
    if bestVal0 + step ≤ hi then
      let t := stateSet temp0 name (bestVal0 + step)
      let rs := ev t
      if bestScore0 < rs.2 then (true, bestVal0 + step, rs.1, rs.2, t, [t])
      else (false, bestVal0, bestRes0, bestScore0, t, [t])
    else (false, bestVal0, bestRes0, bestScore0, temp0, [])
  match up with
  | (improved, bestVal, bestRes, bestScore, temp, log) =>
    if ¬improved ∧ lo ≤ bestVal0 - step then
      let t := stateSet temp name (bestVal0 - step)
      let rs := ev t
      if bestScore < rs.2 then (true, bestVal0 - step, rs.1, rs.2, t, log ++ [t])
      else (false, bestVal, bestRes, bestScore, t, log ++ [t])
    else (improved, bestVal, bestRes, bestScore, temp, log)

/-- The step-halving loop of `optimizeRange` (lines 114-150): repeat while
`step >= 1`; keep the step on improvement, halve it otherwise. -/
def optRangeLoop (ev : State → Result × ℚ) (name : String) (lo hi : ℤ) :
    ℕ → ℤ → State → ℤ → Result → ℚ → ℤ × Result × ℚ × List State
  | 0, _, _, bestVal, bestRes, bestScore => (bestVal, bestRes, bestScore, [])
  | fuel+1, step, temp, bestVal, bestRes, bestScore =>
    if 1 ≤ step then
      match optRangeStep ev name lo hi step temp bestVal bestRes bestScore with
      | (improved, bestVal2, bestRes2, bestScore2, temp2, log) =>
        let step2 := if improved then step else Int.tdiv step 2
        let next := optRangeLoop ev name lo hi fuel step2 temp2 bestVal2 bestRes2 bestScore2
        (next.1, next.2.1, next.2.2.1, log ++ next.2.2.2)
    else (bestVal, bestRes, bestScore, [])

/-- `CoordinateOptimizer.optimizeRange` (lines 100-153): evaluate the
unchanged state first, derive the initial step (`v.Step`, else a tenth of
the span, else 1), then run the step-halving loop. -/
def optimizeRange (ev : State → Result × ℚ) (fuel : ℕ) (s : State)
    (v : Variable) : ℤ × Result × ℚ × List State :=
  let rs := ev s
  let step0 := if v.Step ≤ 0 then Int.tdiv (rangeHi v - rangeLo v) 10 else v.Step
  let step1 := if step0 ≤ 0 then 1 else step0
  let next := optRangeLoop ev v.Name (rangeLo v) (rangeHi v) fuel step1 s
    (stateGetD s v.Name) rs.1 rs.2
  (next.1, next.2.1, next.2.2.1, s :: next.2.2.2)

/-- The per-variable pass of the coordinate outer loop (lines 41-67):
optimize each variable in turn, committing `current[v.Name] = localBestVal`
exactly when the local best score beats the global best. -/
def coordVarPass (ev : State → Result × ℚ) (fuel : ℕ) :
    List Variable → State → Result → ℚ → Bool →
      State × Result × ℚ × Bool × List State
  | [], current, bestRes, bestScore, improved =>
    (current, bestRes, bestScore, improved, [])
  | v :: rest, current, bestRes, bestScore, improved =>
    let r := if 0 < v.Values.length then optimizeList ev current v
             else optimizeRange ev fuel current v
    match r with
    | (localBestVal, localBestRes, localBestScore, log) =>
      let next :=
        if bestScore < localBestScore then
          coordVarPass ev fuel rest (stateSet current v.Name localBestVal)
            localBestRes localBestScore true
        else
          coordVarPass ev fuel rest current bestRes bestScore improved
      (next.1, next.2.1, next.2.2.1, next.2.2.2.1, log ++ next.2.2.2.2)

/-- The outer loop of `CoordinateOptimizer.Optimize` (lines 39-72): repeat
variable passes until one completes without improvement. -/
def coordLoop (ev : State → Result × ℚ) (fuelRange : ℕ)
    (search : List Variable) : ℕ → State → Result → ℚ → State × Result × ℚ × List State
  | 0, current, bestRes, bestScore => (current, bestRes, bestScore, [])
  | n+1, current, bestRes, bestScore =>
    match coordVarPass ev fuelRange search current bestRes bestScore false with
    | (current2, bestRes2, bestScore2, improved, log) =>
      if improved then
        let next := coordLoop ev fuelRange search n current2 bestRes2 bestScore2
        (next.1, next.2.1, next.2.2.1, log ++ next.2.2.2)
      else (current2, bestRes2, bestScore2, log)

/-- `CoordinateOptimizer.Optimize` (lines 22-75): start from the
middle-of-the-road state, evaluate it, then run coordinate passes.  The
last component is the instrumentation: every state passed to the
evaluator, in order. -/
def CoordinateOptimize (ev : State → Result × ℚ) (cfg : Config)
    (fuelOuter fuelRange : ℕ) : State × Result × ℚ × List State :=
  let current := initialState cfg.Search
  let rs := ev current
  let next := coordLoop ev fuelRange cfg.Search fuelOuter current rs.1 rs.2
  (next.1, next.2.1, next.2.2.1, current :: next.2.2.2)

end Optimize

namespace Optimize

/-- The random source of `AnnealingOptimizer`, modelled as indexed streams
threaded by a call counter: `intn k n` models the `k`-th `rnd.Intn(n)` call
(the well-formedness predicate `RngWF` demands a result below `n`),
`norm k` models `rnd.NormFloat64()`, and `flip k` models the Boolean
outcome of the acceptance comparison `math.Exp(delta/temp) > rnd.Float64()`
for non-positive `delta` (the in-domain invariant does not depend on it). -/
structure Rng where
  intn : ℕ → ℕ → ℕ
  norm : ℕ → ℚ
  flip : ℕ → Bool

/-- A lawful random source: `Intn(n)` returns a value in `[0, n)`. -/
def RngWF (g : Rng) : Prop := ∀ k n, 0 < n → g.intn k n < n

/-- A placeholder `config.Variable` for the (never reached) out-of-bounds
index case of list lookups. -/
def defaultVar : Variable := { Name := "", Values := [], Range := [], Step := 0 }

/-- `AnnealingOptimizer.randomState` (coordinate.go lines 264-276): a
random enumerated value, or `Range[0] + Intn(span+1)`. -/
def randomStateLoop (g : Rng) : List Variable → State → ℕ → State × ℕ
  | [], s, k => (s, k)
  | v :: rest, s, k =>
    if 0 < v.Values.length then
      randomStateLoop g rest
        (stateSet s v.Name (v.Values.getD (g.intn k v.Values.length) 0)) (k + 1)
    else
      let span := rangeHi v - rangeLo v
      let val := rangeLo v + ((g.intn k (span + 1).toNat : ℕ) : ℤ)
      randomStateLoop g rest (stateSet s v.Name val) (k + 1)

/-- `AnnealingOptimizer.neighbor` (lines 278-300): copy the state, pick a
random search variable; give it a random enumerated value, or jump by a
Gaussian step scaled by `span * tempRatio` (at least 1, `0` replaced by a
random `±1`), clamped into the range. -/
def neighbor (g : Rng) (search : List Variable) (s : State) (tempRatio : ℚ)
    (k : ℕ) : State × ℕ :=
  let v := search.getD (g.intn k search.length) defaultVar
  if 0 < v.Values.length then
    (stateSet s v.Name (v.Values.getD (g.intn (k + 1) v.Values.length) 0), k + 2)
  else
    let span := rangeHi v - rangeLo v
    let maxJump0 := (span : ℚ) * tempRatio
    let maxJump := if maxJump0 < 1 then 1 else maxJump0
    let jump0 := ratTrunc (g.norm (k + 1) * maxJump)
    let jump := if jump0 = 0 then (if g.intn (k + 2) 2 = 0 then 1 else -1)
                else jump0
    let newVal0 := stateGetD s v.Name + jump
    let newVal1 := if newVal0 < rangeLo v then rangeLo v else newVal0
    let newVal := if rangeHi v < newVal1 then rangeHi v else newVal1
    (stateSet s v.Name newVal, k + 3)

/-- The mutable loop state of `AnnealingOptimizer.Optimize`, plus the
random-stream counter and the instrumentation log. -/
structure AnnealState where
  current : State
  currentScore : ℚ
  currentRes : Result
  best : State
  bestScore : ℚ
  bestRes : Result
  sinceImp : ℤ
  k : ℕ
  log : List State

/-- One annealing step (lines 204-256): evaluate a neighbor, accept it
always on positive delta and by the randomized Metropolis test otherwise,
track the best state, and restart from the best state after
`RestartInterval` steps without improvement. -/
def annealStep (ev : State → Result × ℚ) (g : Rng) (cfg : Config) (temp : ℚ)
    (st : AnnealState) : AnnealState :=
  let nbr := neighbor g cfg.Search st.current (temp / cfg.settings.InitialTemp) st.k
  let rs := ev nbr.1
  let res := rs.1
  let score := rs.2
  let delta := score - st.currentScore
  let accepted : Bool := if 0 < delta then true else g.flip nbr.2
  let k2 := nbr.2 + 1
  let sinceImp1 := st.sinceImp + 1
  let st1 : AnnealState :=
    if accepted then
      if st.bestScore < score then
        { current := nbr.1
          currentScore := score
          currentRes := res
          best := nbr.1
          bestScore := score
          bestRes := res
          sinceImp := 0
          k := k2
          log := st.log ++ [nbr.1] }
      else
        { current := nbr.1
          currentScore := score
          currentRes := res
          best := st.best
          bestScore := st.bestScore
          bestRes := st.bestRes
          sinceImp := sinceImp1
          k := k2
          log := st.log ++ [nbr.1] }
    else
      { st with
          sinceImp := sinceImp1
          k := k2
          log := st.log ++ [nbr.1] }
  if 0 < cfg.settings.RestartInterval ∧ cfg.settings.RestartInterval ≤ st1.sinceImp then
    { st1 with
        current := st1.best
        currentScore := st1.bestScore
        currentRes := st1.bestRes
        sinceImp := 0 }
  else st1

/-- The `stepsPerTemp` inner loop (lines 204-257). -/
def annealInner (ev : State → Result × ℚ) (g : Rng) (cfg : Config)
    (temp : ℚ) : ℕ → AnnealState → AnnealState
  | 0, st => st
  | n+1, st => annealInner ev g cfg temp n (annealStep ev g cfg temp st)

/-- The cooling loop (lines 203-259): run `stepsPerTemp` steps, multiply
the temperature by the cooling rate, stop at `minTemp`; fuel bounds the
number of cooling rounds. -/
def annealOuter (ev : State → Result × ℚ) (g : Rng) (cfg : Config) :
    ℕ → ℚ → AnnealState → AnnealState
  | 0, _, st => st
  | f+1, temp, st =>
    if cfg.settings.MinTemp < temp then
      annealOuter ev g cfg f (temp * cfg.settings.CoolingRate)
        (annealInner ev g cfg temp cfg.settings.StepsPerTemp.toNat st)
    else st

/-- `AnnealingOptimizer.Optimize` (lines 180-262): evaluate a random
initial state, then anneal.  The last component is the instrumentation:
every state passed to the evaluator. -/
def AnnealingOptimize (ev : State → Result × ℚ) (g : Rng) (cfg : Config)
    (fuel : ℕ) : State × Result × List State :=
  let rsS := randomStateLoop g cfg.Search emptyState 0
  let rs := ev rsS.1
  let st0 : AnnealState :=
    { current := rsS.1
      currentScore := rs.2
      currentRes := rs.1
      best := rsS.1
      bestScore := rs.2
      bestRes := rs.1
      sinceImp := 0
      k := rsS.2
      log := [rsS.1] }
  let stF := annealOuter ev g cfg fuel cfg.settings.InitialTemp st0
  (stF.best, stF.bestRes, stF.log)

end Optimize

namespace Optimize

/-- A value is in a variable's domain: one of the enumerated values if any
are given, otherwise within the inclusive range. -/
def inDomainVal (v : Variable) (val : ℤ) : Prop :=
  if 0 < v.Values.length then val ∈ v.Values
  else rangeLo v ≤ val ∧ val ≤ rangeHi v

/-- A state maps a variable (zero-defaulted read, as the optimizers read
it) into its domain. -/
def inDomainVar (s : State) (v : Variable) : Prop :=
  inDomainVal v (stateGetD s v.Name)

/-- A state is in-domain for a search space: every search variable reads to
an in-domain value. -/
def inDomain (search : List Variable) (s : State) : Prop :=
  ∀ v ∈ search, inDomainVar s v

/-- A well-formed range variable has a nondecreasing range. -/
def wfVar (v : Variable) : Prop :=
  v.Values.length = 0 → rangeLo v ≤ rangeHi v

/-- The search variables carry pairwise distinct names. -/
def distinctNames (search : List Variable) : Prop :=
  search.Pairwise (fun a b => a.Name ≠ b.Name)

theorem stateGetD_set_self (s : State) (k : String) (v : ℤ) :
    stateGetD (stateSet s k v) k = v := by
  simp [stateGetD, stateSet]

theorem stateGetD_set_ne (s : State) (k k2 : String) (v : ℤ) (h : k2 ≠ k) :
    stateGetD (stateSet s k v) k2 = stateGetD s k2 := by
  simp [stateGetD, stateSet, h]

theorem getD_mem {l : List ℤ} {n : ℕ} (h : n < l.length) : l.getD n 0 ∈ l := by
  rw [List.getD_eq_getElem l 0 h]
  exact List.getElem_mem h

theorem tdiv_two_between (lo hi : ℤ) (h : lo ≤ hi) :
    lo ≤ (lo + hi).tdiv 2 ∧ (lo + hi).tdiv 2 ≤ hi := by
  rcases le_or_lt 0 (lo + hi) with hs | hs
  · rw [Int.tdiv_eq_ediv hs (by norm_num)]
    omega
  · have hneg : lo + hi = -(-(lo + hi)) := by ring
    rw [hneg, Int.neg_tdiv, Int.tdiv_eq_ediv (by omega) (by norm_num)]
    omega

theorem inDomainVal_midVal (v : Variable) (hwf : wfVar v) :
    inDomainVal v (midVal v) := by
  rw [inDomainVal, midVal]
  by_cases hl : 0 < v.Values.length
  · rw [if_pos hl, if_pos hl]
    exact getD_mem (by omega)
  · rw [if_neg hl, if_neg hl]
    exact tdiv_two_between _ _ (hwf (by omega))

theorem inDomainVar_set_ne (s : State) (v : Variable) (name : String) (val : ℤ)
    (h : v.Name ≠ name) : inDomainVar (stateSet s name val) v ↔ inDomainVar s v := by
  rw [inDomainVar, inDomainVar, stateGetD_set_ne s name v.Name val h]

theorem inDomainVar_set_self (s : State) (v : Variable) (val : ℤ)
    (h : inDomainVal v val) : inDomainVar (stateSet s v.Name val) v := by
  rw [inDomainVar, stateGetD_set_self]
  exact h

theorem inDomain_set (search : List Variable) (s : State) (v : Variable)
    (val : ℤ) (hd : distinctNames search) (hv : v ∈ search)
    (hs : inDomain search s) (hval : inDomainVal v val) :
    inDomain search (stateSet s v.Name val) := by
  intro w hw
  by_cases hne : w.Name = v.Name
  · by_cases hwv : w = v
    · subst hwv
      exact inDomainVar_set_self s w val hval
    · exfalso
      have hpw := List.Pairwise.forall (fun a b h => (h : a.Name ≠ b.Name).symm) hd hw hv
      exact hpw hwv hne
  · exact (inDomainVar_set_ne s w v.Name val hne).mpr (hs w hw)

theorem foldl_stateSet_getD (f : Variable → ℤ) :
    ∀ (search : List Variable) (s : State) (name : String),
      (∀ w ∈ search, w.Name ≠ name) →
      stateGetD (search.foldl (fun s v => stateSet s v.Name (f v)) s) name
        = stateGetD s name
  | [], s, name, _ => rfl
  | v :: rest, s, name, h => by
    rw [List.foldl_cons,
      foldl_stateSet_getD f rest _ name (fun w hw => h w (List.mem_cons_of_mem v hw)),
      stateGetD_set_ne s v.Name name (f v) (fun he => h v (List.mem_cons_self v rest) he.symm)]

theorem initialState_aux :
    ∀ (search : List Variable) (s : State),
      distinctNames search → (∀ v ∈ search, wfVar v) →
      ∀ v ∈ search,
        inDomainVar (search.foldl (fun s v => stateSet s v.Name (midVal v)) s) v
  | [], _, _, _, v, hv => absurd hv (List.not_mem_nil v)
  | w :: rest, s, hd, hwf, v, hv => by
    rw [List.foldl_cons]
    rcases List.mem_cons.mp hv with rfl | hmem
    · have hnames : ∀ u ∈ rest, u.Name ≠ v.Name :=
        fun u hu => ((List.pairwise_cons.mp hd).1 u hu).symm
      rw [inDomainVar, foldl_stateSet_getD midVal rest _ v.Name hnames,
        stateGetD_set_self]
      exact inDomainVal_midVal v (hwf v (List.mem_cons_self v rest))
    · exact initialState_aux rest _ (List.pairwise_cons.mp hd).2
        (fun u hu => hwf u (List.mem_cons_of_mem w hu)) v hmem

theorem initialState_inDomain (search : List Variable)
    (hd : distinctNames search) (hwf : ∀ v ∈ search, wfVar v) :
    inDomain search (initialState search) :=
  fun v hv => initialState_aux search emptyState hd hwf v hv

theorem randomStateLoop_getD (g : Rng) :
    ∀ (search : List Variable) (s : State) (k : ℕ) (name : String),
      (∀ w ∈ search, w.Name ≠ name) →
      stateGetD (randomStateLoop g search s k).1 name = stateGetD s name
  | [], _, _, _, _ => rfl
  | v :: rest, s, k, name, h => by
    have hv : v.Name ≠ name := h v (List.mem_cons_self v rest)
    have hrest : ∀ w ∈ rest, w.Name ≠ name :=
      fun w hw => h w (List.mem_cons_of_mem v hw)
    rw [randomStateLoop]
    by_cases hl : 0 < v.Values.length
    · rw [if_pos hl, randomStateLoop_getD g rest _ (k + 1) name hrest,
        stateGetD_set_ne s v.Name name _ hv.symm]
    · rw [if_neg hl, randomStateLoop_getD g rest _ (k + 1) name hrest,
        stateGetD_set_ne s v.Name name _ hv.symm]

theorem randomStateLoop_inDomain (g : Rng) (hg : RngWF g) :
    ∀ (search : List Variable) (s : State) (k : ℕ),
      distinctNames search → (∀ v ∈ search, wfVar v) →
      ∀ v ∈ search, inDomainVar (randomStateLoop g search s k).1 v
  | [], _, _, _, _, v, hv => absurd hv (List.not_mem_nil v)
  | w :: rest, s, k, hd, hwf, v, hv => by
    rw [randomStateLoop]
    have hdr := (List.pairwise_cons.mp hd).2
    have hwfr : ∀ u ∈ rest, wfVar u :=
      fun u hu => hwf u (List.mem_cons_of_mem w hu)
    rcases List.mem_cons.mp hv with rfl | hmem
    · have hnames : ∀ u ∈ rest, u.Name ≠ v.Name :=
        fun u hu => ((List.pairwise_cons.mp hd).1 u hu).symm
      by_cases hl : 0 < v.Values.length
      · rw [if_pos hl, inDomainVar,
          randomStateLoop_getD g rest _ (k + 1) v.Name hnames, stateGetD_set_self,
          inDomainVal, if_pos hl]
        exact getD_mem (hg k v.Values.length hl)
      · rw [if_neg hl, inDomainVar,
          randomStateLoop_getD g rest _ (k + 1) v.Name hnames, stateGetD_set_self,
          inDomainVal, if_neg hl]
        have hr : rangeLo v ≤ rangeHi v := hwf v (List.mem_cons_self v rest) (by omega)
        have hspan : 0 < (rangeHi v - rangeLo v + 1).toNat := by omega
        have hb := hg k (rangeHi v - rangeLo v + 1).toNat hspan
        omega
    · by_cases hl : 0 < w.Values.length
      · rw [if_pos hl]
        exact randomStateLoop_inDomain g hg rest _ (k + 1) hdr hwfr v hmem
      · rw [if_neg hl]
        exact randomStateLoop_inDomain g hg rest _ (k + 1) hdr hwfr v hmem

theorem optListLoop_inv (ev : State → Result × ℚ) (search : List Variable)
    (v : Variable) (hd : distinctNames search) (hv : v ∈ search)
    (hvals : 0 < v.Values.length) :
    ∀ (vals : List ℤ) (temp : State) (bestVal : ℤ) (bestRes : Result) (bestScore : ℚ),
      (∀ x ∈ vals, x ∈ v.Values) → inDomain search temp → bestVal ∈ v.Values →
      (optListLoop ev v.Name vals temp bestVal bestRes bestScore).1 ∈ v.Values ∧
      ∀ t ∈ (optListLoop ev v.Name vals temp bestVal bestRes bestScore).2.2.2,
        inDomain search t
  | [], temp, bestVal, bestRes, bestScore, _, _, hbv => by
    rw [optListLoop]
    exact ⟨hbv, fun t ht => absurd ht (List.not_mem_nil t)⟩
  | val :: rest, temp, bestVal, bestRes, bestScore, hvals2, htemp, hbv => by
    have hvalmem : val ∈ v.Values := hvals2 val (List.mem_cons_self val rest)
    have hrest : ∀ x ∈ rest, x ∈ v.Values :=
      fun x hx => hvals2 x (List.mem_cons_of_mem val hx)
    have htemp2 : inDomain search (stateSet temp v.Name val) :=
      inDomain_set search temp v val hd hv htemp (by rw [inDomainVal, if_pos hvals]; exact hvalmem)
    rw [optListLoop]
    by_cases hcond : bestScore < (ev (stateSet temp v.Name val)).2 ∨ bestRes.IOPS = 0
    · rw [if_pos hcond]
      have ih := optListLoop_inv ev search v hd hv hvals rest
        (stateSet temp v.Name val) val (ev (stateSet temp v.Name val)).1
        (ev (stateSet temp v.Name val)).2 hrest htemp2 hvalmem
      refine ⟨ih.1, fun t ht => ?_⟩
      rcases List.mem_cons.mp ht with rfl | hmem
      · exact htemp2
      · exact ih.2 t hmem
    · rw [if_neg hcond]
      have ih := optListLoop_inv ev search v hd hv hvals rest
        (stateSet temp v.Name val) bestVal bestRes bestScore hrest htemp2 hbv
      refine ⟨ih.1, fun t ht => ?_⟩
      rcases List.mem_cons.mp ht with rfl | hmem
      · exact htemp2
      · exact ih.2 t hmem

theorem optimizeList_inv (ev : State → Result × ℚ) (search : List Variable)
    (v : Variable) (hd : distinctNames search) (hv : v ∈ search)
    (hvals : 0 < v.Values.length) (s : State) (hs : inDomain search s) :
    (optimizeList ev s v).1 ∈ v.Values ∧
    ∀ t ∈ (optimizeList ev s v).2.2.2, inDomain search t := by
  have hbv : stateGetD s v.Name ∈ v.Values := by
    have := hs v hv
    rw [inDomainVar, inDomainVal, if_pos hvals] at this
    exact this
  exact optListLoop_inv ev search v hd hv hvals v.Values s
    (stateGetD s v.Name) zeroResult 0 (fun x hx => hx) hs hbv

theorem optRangeStep_inv (ev : State → Result × ℚ) (search : List Variable)
    (v : Variable) (hd : distinctNames search) (hv : v ∈ search)
    (hnl : ¬ 0 < v.Values.length) (step : ℤ) (temp0 : State) (bestVal0 : ℤ)
    (bestRes0 : Result) (bestScore0 : ℚ) (hstep : 1 ≤ step)
    (htemp : inDomain search temp0) (hlo : rangeLo v ≤ bestVal0)
    (hhi : bestVal0 ≤ rangeHi v) :
    rangeLo v ≤ (optRangeStep ev v.Name (rangeLo v) (rangeHi v) step temp0
        bestVal0 bestRes0 bestScore0).2.1 ∧
    (optRangeStep ev v.Name (rangeLo v) (rangeHi v) step temp0 bestVal0
        bestRes0 bestScore0).2.1 ≤ rangeHi v ∧
    inDomain search (optRangeStep ev v.Name (rangeLo v) (rangeHi v) step temp0
        bestVal0 bestRes0 bestScore0).2.2.2.2.1 ∧
    ∀ t ∈ (optRangeStep ev v.Name (rangeLo v) (rangeHi v) step temp0 bestVal0
        bestRes0 bestScore0).2.2.2.2.2, inDomain search t := by
  by_cases hup : bestVal0 + step ≤ rangeHi v
  · have hvup : inDomainVal v (bestVal0 + step) := by
      rw [inDomainVal, if_neg hnl]
      omega
    have ht1 : inDomain search (stateSet temp0 v.Name (bestVal0 + step)) :=
      inDomain_set search temp0 v _ hd hv htemp hvup
    by_cases hsc : bestScore0 < (ev (stateSet temp0 v.Name (bestVal0 + step))).2
    · have hred : optRangeStep ev v.Name (rangeLo v) (rangeHi v) step temp0
          bestVal0 bestRes0 bestScore0 =
          (true, bestVal0 + step, (ev (stateSet temp0 v.Name (bestVal0 + step))).1,
            (ev (stateSet temp0 v.Name (bestVal0 + step))).2,
            stateSet temp0 v.Name (bestVal0 + step),
            [stateSet temp0 v.Name (bestVal0 + step)]) := by
        simp only [optRangeStep]
        rw [if_pos hup, if_pos hsc]
        simp
      rw [hred]
      dsimp only
      refine ⟨by omega, by omega, ht1, fun t ht => ?_⟩
      rw [List.mem_singleton.mp ht]
      exact ht1
    · by_cases hdn : rangeLo v ≤ bestVal0 - step
      · have hvdn : inDomainVal v (bestVal0 - step) := by
          rw [inDomainVal, if_neg hnl]
          omega
        have ht2 : inDomain search (stateSet (stateSet temp0 v.Name (bestVal0 + step))
            v.Name (bestVal0 - step)) :=
          inDomain_set search _ v _ hd hv ht1 hvdn
        have hred : optRangeStep ev v.Name (rangeLo v) (rangeHi v) step temp0
            bestVal0 bestRes0 bestScore0 =
            (let t2 := stateSet (stateSet temp0 v.Name (bestVal0 + step))
               v.Name (bestVal0 - step)
             if bestScore0 < (ev t2).2 then
               (true, bestVal0 - step, (ev t2).1, (ev t2).2, t2,
                 [stateSet temp0 v.Name (bestVal0 + step), t2])
             else
               (false, bestVal0, bestRes0, bestScore0, t2,
                 [stateSet temp0 v.Name (bestVal0 + step), t2])) := by
          simp only [optRangeStep]
          rw [if_pos hup, if_neg hsc]
          simp [hdn]
        rw [hred]
        by_cases hsc2 : bestScore0 <
            (ev (stateSet (stateSet temp0 v.Name (bestVal0 + step))
              v.Name (bestVal0 - step))).2
        · rw [if_pos hsc2]
          dsimp only
          refine ⟨by omega, by omega, ht2, fun t ht => ?_⟩
          rcases List.mem_cons.mp ht with rfl | hm
          · exact ht1
          · rw [List.mem_singleton.mp hm]
            exact ht2
        · rw [if_neg hsc2]
          dsimp only
          refine ⟨hlo, hhi, ht2, fun t ht => ?_⟩
          rcases List.mem_cons.mp ht with rfl | hm
          · exact ht1
          · rw [List.mem_singleton.mp hm]
            exact ht2
      · have hred : optRangeStep ev v.Name (rangeLo v) (rangeHi v) step temp0
            bestVal0 bestRes0 bestScore0 =
            (false, bestVal0, bestRes0, bestScore0,
              stateSet temp0 v.Name (bestVal0 + step),
              [stateSet temp0 v.Name (bestVal0 + step)]) := by
          simp only [optRangeStep]
          rw [if_pos hup, if_neg hsc]
          simp [hdn]
        rw [hred]
        dsimp only
        refine ⟨hlo, hhi, ht1, fun t ht => ?_⟩
        rw [List.mem_singleton.mp ht]
        exact ht1
  · by_cases hdn : rangeLo v ≤ bestVal0 - step
    · have hvdn : inDomainVal v (bestVal0 - step) := by
        rw [inDomainVal, if_neg hnl]
        omega
      have ht2 : inDomain search (stateSet temp0 v.Name (bestVal0 - step)) :=
        inDomain_set search temp0 v _ hd hv htemp hvdn
      have hred : optRangeStep ev v.Name (rangeLo v) (rangeHi v) step temp0
          bestVal0 bestRes0 bestScore0 =
          (let t2 := stateSet temp0 v.Name (bestVal0 - step)
           if bestScore0 < (ev t2).2 then
             (true, bestVal0 - step, (ev t2).1, (ev t2).2, t2, [t2])
           else
             (false, bestVal0, bestRes0, bestScore0, t2, [t2])) := by
        simp only [optRangeStep]
        rw [if_neg hup]
        simp [hdn]
      rw [hred]
      by_cases hsc2 : bestScore0 < (ev (stateSet temp0 v.Name (bestVal0 - step))).2
      · rw [if_pos hsc2]
        dsimp only
        refine ⟨by omega, by omega, ht2, fun t ht => ?_⟩
        rw [List.mem_singleton.mp ht]
        exact ht2
      · rw [if_neg hsc2]
        dsimp only
        refine ⟨hlo, hhi, ht2, fun t ht => ?_⟩
        rw [List.mem_singleton.mp ht]
        exact ht2
    · have hred : optRangeStep ev v.Name (rangeLo v) (rangeHi v) step temp0
          bestVal0 bestRes0 bestScore0 =
          (false, bestVal0, bestRes0, bestScore0, temp0, []) := by
        simp only [optRangeStep]
        rw [if_neg hup]
        simp [hdn]
      rw [hred]
      dsimp only
      exact ⟨hlo, hhi, htemp, fun t ht => absurd ht (List.not_mem_nil t)⟩

theorem optRangeLoop_inv (ev : State → Result × ℚ) (search : List Variable)
    (v : Variable) (hd : distinctNames search) (hv : v ∈ search)
    (hnl : ¬ 0 < v.Values.length) :
    ∀ (fuel : ℕ) (step : ℤ) (temp : State) (bestVal : ℤ) (bestRes : Result)
      (bestScore : ℚ), inDomain search temp → rangeLo v ≤ bestVal →
      bestVal ≤ rangeHi v →
      rangeLo v ≤ (optRangeLoop ev v.Name (rangeLo v) (rangeHi v) fuel step
          temp bestVal bestRes bestScore).1 ∧
      (optRangeLoop ev v.Name (rangeLo v) (rangeHi v) fuel step temp bestVal
          bestRes bestScore).1 ≤ rangeHi v ∧
      ∀ t ∈ (optRangeLoop ev v.Name (rangeLo v) (rangeHi v) fuel step temp
          bestVal bestRes bestScore).2.2.2, inDomain search t
  | 0, step, temp, bestVal, bestRes, bestScore, htemp, hlo, hhi => by
    rw [optRangeLoop]
    exact ⟨hlo, hhi, fun t ht => absurd ht (List.not_mem_nil t)⟩
  | fuel+1, step, temp, bestVal, bestRes, bestScore, htemp, hlo, hhi => by
    rw [optRangeLoop]
    by_cases hstep : 1 ≤ step
    · rw [if_pos hstep]
      rcases hr : optRangeStep ev v.Name (rangeLo v) (rangeHi v) step temp
          bestVal bestRes bestScore with ⟨improved, bestVal2, bestRes2, bestScore2, temp2, log⟩
      have hinv := optRangeStep_inv ev search v hd hv hnl step temp bestVal
        bestRes bestScore hstep htemp hlo hhi
      rw [hr] at hinv
      dsimp only at hinv
      obtain ⟨hlo2, hhi2, htemp2, hlog⟩ := hinv
      dsimp only
      have ih := optRangeLoop_inv ev search v hd hv hnl fuel
        (if improved then step else Int.tdiv step 2) temp2 bestVal2 bestRes2
        bestScore2 htemp2 hlo2 hhi2
      refine ⟨ih.1, ih.2.1, fun t ht => ?_⟩
      rcases List.mem_append.mp ht with hm | hm
      · exact hlog t hm
      · exact ih.2.2 t hm
    · rw [if_neg hstep]
      exact ⟨hlo, hhi, fun t ht => absurd ht (List.not_mem_nil t)⟩

theorem optimizeRange_inv (ev : State → Result × ℚ) (search : List Variable)
    (v : Variable) (hd : distinctNames search) (hv : v ∈ search)
    (hnl : ¬ 0 < v.Values.length) (fuel : ℕ) (s : State)
    (hs : inDomain search s) :
    rangeLo v ≤ (optimizeRange ev fuel s v).1 ∧
    (optimizeRange ev fuel s v).1 ≤ rangeHi v ∧
    ∀ t ∈ (optimizeRange ev fuel s v).2.2.2, inDomain search t := by
  have hb := hs v hv
  rw [inDomainVar, inDomainVal, if_neg hnl] at hb
  have h := optRangeLoop_inv ev search v hd hv hnl fuel
    (if (if v.Step ≤ 0 then Int.tdiv (rangeHi v - rangeLo v) 10 else v.Step) ≤ 0
      then 1
      else (if v.Step ≤ 0 then Int.tdiv (rangeHi v - rangeLo v) 10 else v.Step))
    s (stateGetD s v.Name) (ev s).1 (ev s).2 hs hb.1 hb.2
  refine ⟨h.1, h.2.1, fun t ht => ?_⟩
  rcases List.mem_cons.mp ht with rfl | hm
  · exact hs
  · exact h.2.2 t hm

theorem coordVarPass_inv (ev : State → Result × ℚ) (fuel : ℕ)
    (search : List Variable) (hd : distinctNames search)
    (hwf : ∀ v ∈ search, wfVar v) :
    ∀ (vars : List Variable) (current : State) (bestRes : Result)
      (bestScore : ℚ) (improved : Bool), (∀ v ∈ vars, v ∈ search) →
      inDomain search current →
      inDomain search (coordVarPass ev fuel vars current bestRes bestScore improved).1 ∧
      ∀ t ∈ (coordVarPass ev fuel vars current bestRes bestScore improved).2.2.2.2,
        inDomain search t
  | [], current, bestRes, bestScore, improved, _, hcur => by
    rw [coordVarPass]
    exact ⟨hcur, fun t ht => absurd ht (List.not_mem_nil t)⟩
  | v :: rest, current, bestRes, bestScore, improved, hsub, hcur => by
    have hv : v ∈ search := hsub v (List.mem_cons_self v rest)
    have hrest : ∀ u ∈ rest, u ∈ search :=
      fun u hu => hsub u (List.mem_cons_of_mem v hu)
    rw [coordVarPass]
    by_cases hl : 0 < v.Values.length
    · rw [if_pos hl]
      rcases hr : optimizeList ev current v with ⟨lbVal, lbRes, lbScore, log⟩
      have hinv := optimizeList_inv ev search v hd hv hl current hcur
      rw [hr] at hinv
      dsimp only at hinv
      dsimp only
      by_cases hbs : bestScore < lbScore
      · rw [if_pos hbs]
        have hnew : inDomain search (stateSet current v.Name lbVal) :=
          inDomain_set search current v lbVal hd hv hcur
            (by rw [inDomainVal, if_pos hl]; exact hinv.1)
        have ih := coordVarPass_inv ev fuel search hd hwf rest
          (stateSet current v.Name lbVal) lbRes lbScore true hrest hnew
        refine ⟨ih.1, fun t ht => ?_⟩
        rcases List.mem_append.mp ht with hm | hm
        · exact hinv.2 t hm
        · exact ih.2 t hm
      · rw [if_neg hbs]
        have ih := coordVarPass_inv ev fuel search hd hwf rest current bestRes
          bestScore improved hrest hcur
        refine ⟨ih.1, fun t ht => ?_⟩
        rcases List.mem_append.mp ht with hm | hm
        · exact hinv.2 t hm
        · exact ih.2 t hm
    · rw [if_neg hl]
      rcases hr : optimizeRange ev fuel current v with ⟨lbVal, lbRes, lbScore, log⟩
      have hinv := optimizeRange_inv ev search v hd hv hl fuel current hcur
      rw [hr] at hinv
      dsimp only at hinv
      dsimp only
      by_cases hbs : bestScore < lbScore
      · rw [if_pos hbs]
        have hnew : inDomain search (stateSet current v.Name lbVal) :=
          inDomain_set search current v lbVal hd hv hcur
            (by rw [inDomainVal, if_neg hl]; exact ⟨hinv.1, hinv.2.1⟩)
        have ih := coordVarPass_inv ev fuel search hd hwf rest
          (stateSet current v.Name lbVal) lbRes lbScore true hrest hnew
        refine ⟨ih.1, fun t ht => ?_⟩
        rcases List.mem_append.mp ht with hm | hm
        · exact hinv.2.2 t hm
        · exact ih.2 t hm
      · rw [if_neg hbs]
        have ih := coordVarPass_inv ev fuel search hd hwf rest current bestRes
          bestScore improved hrest hcur
        refine ⟨ih.1, fun t ht => ?_⟩
        rcases List.mem_append.mp ht with hm | hm
        · exact hinv.2.2 t hm
        · exact ih.2 t hm

theorem coordLoop_inv (ev : State → Result × ℚ) (fuelRange : ℕ)
    (search : List Variable) (hd : distinctNames search)
    (hwf : ∀ v ∈ search, wfVar v) :
    ∀ (n : ℕ) (current : State) (bestRes : Result) (bestScore : ℚ),
      inDomain search current →
      ∀ t ∈ (coordLoop ev fuelRange search n current bestRes bestScore).2.2.2,
        inDomain search t
  | 0, current, bestRes, bestScore, _ => by
    rw [coordLoop]
    exact fun t ht => absurd ht (List.not_mem_nil t)
  | n+1, current, bestRes, bestScore, hcur => by
    rw [coordLoop]
    rcases hr : coordVarPass ev fuelRange search current bestRes bestScore false
      with ⟨current2, bestRes2, bestScore2, improved, log⟩
    have hinv := coordVarPass_inv ev fuelRange search hd hwf search current
      bestRes bestScore false (fun u hu => hu) hcur
    rw [hr] at hinv
    dsimp only at hinv
    dsimp only
    by_cases himp : improved = true
    · rw [if_pos himp]
      have ih := coordLoop_inv ev fuelRange search hd hwf n current2 bestRes2
        bestScore2 hinv.1
      dsimp only
      intro t ht
      rcases List.mem_append.mp ht with hm | hm
      · exact hinv.2 t hm
      · exact ih t hm
    · rw [if_neg himp]
      exact fun t ht => hinv.2 t ht

theorem neighbor_inv (g : Rng) (search : List Variable)
    (hd : distinctNames search) (hwf : ∀ v ∈ search, wfVar v) (hg : RngWF g)
    (hne : search ≠ []) (s : State) (tr : ℚ) (k : ℕ)
    (hs : inDomain search s) :
    inDomain search (neighbor g search s tr k).1 := by
  have hlen : 0 < search.length := List.length_pos.mpr hne
  have hidx : g.intn k search.length < search.length := hg k search.length hlen
  have hvmem : search.getD (g.intn k search.length) defaultVar ∈ search := by
    rw [List.getD_eq_getElem search defaultVar hidx]
    exact List.getElem_mem hidx
  simp only [neighbor]
  by_cases hl : 0 < (search.getD (g.intn k search.length) defaultVar).Values.length
  · rw [if_pos hl]
    dsimp only
    exact inDomain_set search s _ _ hd hvmem hs
      (by rw [inDomainVal, if_pos hl]
          exact getD_mem (hg (k + 1) _ hl))
  · rw [if_neg hl]
    dsimp only
    have hr : rangeLo (search.getD (g.intn k search.length) defaultVar)
        ≤ rangeHi (search.getD (g.intn k search.length) defaultVar) :=
      hwf _ hvmem (by omega)
    refine inDomain_set search s _ _ hd hvmem hs ?_
    rw [inDomainVal, if_neg hl]
    constructor <;> split_ifs <;> omega

/-- The annealing loop invariant: the current state, the best state and
every logged state are in-domain. -/
def annealInv (search : List Variable) (st : AnnealState) : Prop :=
  inDomain search st.current ∧ inDomain search st.best ∧
    ∀ t ∈ st.log, inDomain search t

theorem annealStep_inv (ev : State → Result × ℚ) (g : Rng) (cfg : Config)
    (temp : ℚ) (hd : distinctNames cfg.Search)
    (hwf : ∀ v ∈ cfg.Search, wfVar v) (hg : RngWF g) (hne : cfg.Search ≠ [])
    (st : AnnealState) (h : annealInv cfg.Search st) :
    annealInv cfg.Search (annealStep ev g cfg temp st) := by
  obtain ⟨hcur, hbest, hlog⟩ := h
  have hnb : inDomain cfg.Search
      (neighbor g cfg.Search st.current (temp / cfg.settings.InitialTemp) st.k).1 :=
    neighbor_inv g cfg.Search hd hwf hg hne st.current _ st.k hcur
  simp only [annealStep, annealInv]
  split_ifs <;> dsimp only <;>
    refine ⟨?_, ?_, ?_⟩ <;>
    first
      | exact hnb
      | exact hbest
      | exact hcur
      | (intro t ht
         rcases List.mem_append.mp ht with hm | hm
         · exact hlog t hm
         · rw [List.mem_singleton.mp hm]
           exact hnb)

theorem annealInner_inv (ev : State → Result × ℚ) (g : Rng) (cfg : Config)
    (temp : ℚ) (hd : distinctNames cfg.Search)
    (hwf : ∀ v ∈ cfg.Search, wfVar v) (hg : RngWF g) (hne : cfg.Search ≠ []) :
    ∀ (n : ℕ) (st : AnnealState), annealInv cfg.Search st →
      annealInv cfg.Search (annealInner ev g cfg temp n st)
  | 0, _, h => h
  | n+1, st, h =>
    annealInner_inv ev g cfg temp hd hwf hg hne n (annealStep ev g cfg temp st)
      (annealStep_inv ev g cfg temp hd hwf hg hne st h)

theorem annealOuter_inv (ev : State → Result × ℚ) (g : Rng) (cfg : Config)
    (hd : distinctNames cfg.Search) (hwf : ∀ v ∈ cfg.Search, wfVar v)
    (hg : RngWF g) (hne : cfg.Search ≠ []) :
    ∀ (fuel : ℕ) (temp : ℚ) (st : AnnealState), annealInv cfg.Search st →
      annealInv cfg.Search (annealOuter ev g cfg fuel temp st)
  | 0, _, _, h => h
  | f+1, temp, st, h => by
    rw [annealOuter]
    by_cases hmt : cfg.settings.MinTemp < temp
    · rw [if_pos hmt]
      exact annealOuter_inv ev g cfg hd hwf hg hne f
        (temp * cfg.settings.CoolingRate)
        (annealInner ev g cfg temp cfg.settings.StepsPerTemp.toNat st)
        (annealInner_inv ev g cfg temp hd hwf hg hne
          cfg.settings.StepsPerTemp.toNat st h)
    · rw [if_neg hmt]
      exact h

end Optimize

/-- C10: both optimizers only ever evaluate in-domain states.  For a search
space with pairwise-distinct variable names and well-formed ranges (and, for
the annealing optimizer, a nonempty search space and a lawful random
source), every state the coordinate optimizer passes to the evaluator (the
initial midpoint state, every enumerated trial, every step-halving up/down
trial) and every state the annealing optimizer passes to the evaluator (the
random initial state, every clamped neighbor) maps each search variable to
one of its enumerated values, or into its inclusive range. -/
theorem claim_C10 (ev : Optimize.State → Optimize.Result × ℚ)
    (g : Optimize.Rng) (cfg : Optimize.Config)
    (fuelOuter fuelRange fuelAnneal : ℕ)
    (hd : Optimize.distinctNames cfg.Search)
    (hwf : ∀ v ∈ cfg.Search, Optimize.wfVar v)
    (hg : Optimize.RngWF g) (hne : cfg.Search ≠ []) :
    (∀ t ∈ (Optimize.CoordinateOptimize ev cfg fuelOuter fuelRange).2.2.2,
      Optimize.inDomain cfg.Search t) ∧
    (∀ t ∈ (Optimize.AnnealingOptimize ev g cfg fuelAnneal).2.2,
      Optimize.inDomain cfg.Search t) := by
  constructor
  · intro t ht
    have hinit := Optimize.initialState_inDomain cfg.Search hd hwf
    have hred : (Optimize.CoordinateOptimize ev cfg fuelOuter fuelRange).2.2.2 =
        Optimize.initialState cfg.Search ::
          (Optimize.coordLoop ev fuelRange cfg.Search fuelOuter
            (Optimize.initialState cfg.Search)
            (ev (Optimize.initialState cfg.Search)).1
            (ev (Optimize.initialState cfg.Search)).2).2.2.2 := rfl
    rw [hred] at ht
    rcases List.mem_cons.mp ht with rfl | hm
    · exact hinit
    · exact Optimize.coordLoop_inv ev fuelRange cfg.Search hd hwf fuelOuter
        _ _ _ hinit t hm
  · intro t ht
    have hrand : Optimize.inDomain cfg.Search
        (Optimize.randomStateLoop g cfg.Search Optimize.emptyState 0).1 :=
      fun v hv => Optimize.randomStateLoop_inDomain g hg cfg.Search
        Optimize.emptyState 0 hd hwf v hv
    have hinv0 : Optimize.annealInv cfg.Search
        { current := (Optimize.randomStateLoop g cfg.Search Optimize.emptyState 0).1
          currentScore := (ev (Optimize.randomStateLoop g cfg.Search Optimize.emptyState 0).1).2
          currentRes := (ev (Optimize.randomStateLoop g cfg.Search Optimize.emptyState 0).1).1
          best := (Optimize.randomStateLoop g cfg.Search Optimize.emptyState 0).1
          bestScore := (ev (Optimize.randomStateLoop g cfg.Search Optimize.emptyState 0).1).2
          bestRes := (ev (Optimize.randomStateLoop g cfg.Search Optimize.emptyState 0).1).1
          sinceImp := 0
          k := (Optimize.randomStateLoop g cfg.Search Optimize.emptyState 0).2
          log := [(Optimize.randomStateLoop g cfg.Search Optimize.emptyState 0).1] } := by
      refine ⟨hrand, hrand, fun t2 ht2 => ?_⟩
      rw [List.mem_singleton.mp ht2]
      exact hrand
    have hstf := Optimize.annealOuter_inv ev g cfg hd hwf hg hne fuelAnneal
      cfg.settings.InitialTemp _ hinv0
    exact hstf.2.2 t ht

/-- A two-variable search space: an enumerated block size and a worker
range. -/
def varsC10 : List Optimize.Variable :=
  [{ Name := "block_size", Values := [4096, 8192], Range := [], Step := 0 },
   { Name := "workers", Values := [], Range := [1, 16], Step := 0 }]

/-- A concrete configuration over `varsC10`. -/
def cfgC10 : Optimize.Config :=
  { Target := ""
    Search := varsC10
    Objectives := []
    Optimizer := ""
    settings := { EngineType := "sync"
                  Direct := false
                  ReadPct := 100
                  Rand := false
                  MinRuntime := 1000000000
                  MaxRuntime := 10000000000
                  ErrorTarget := 0
                  InitialTemp := 100
                  CoolingRate := 1 / 2
                  MinTemp := 1
                  StepsPerTemp := 2
                  RestartInterval := 0 } }

/-- A trivial evaluator oracle. -/
def ev0C10 : Optimize.State → Optimize.Result × ℚ :=
  fun _ => (Optimize.zeroResult, 0)

/-- A lawful random source that always draws 0. -/
def rngC10 : Optimize.Rng :=
  { intn := fun _ _ => 0, norm := fun _ => 0, flip := fun _ => false }

/-- C10 witness: the in-domain invariant at a concrete two-variable search
space, for both optimizers. -/
theorem claim_C10_witness :
    Optimize.distinctNames cfgC10.Search ∧
    ((∀ t ∈ (Optimize.CoordinateOptimize ev0C10 cfgC10 1 1).2.2.2,
        Optimize.inDomain cfgC10.Search t) ∧
      (∀ t ∈ (Optimize.AnnealingOptimize ev0C10 rngC10 cfgC10 1).2.2,
        Optimize.inDomain cfgC10.Search t)) :=
  ⟨by unfold Optimize.distinctNames; decide,
    claim_C10 ev0C10 rngC10 cfgC10 1 1 1
      (by unfold Optimize.distinctNames; decide)
      (by unfold Optimize.wfVar; decide)
      (fun _ _ h => h) (by decide)⟩
